import Mathlib

/-!
Verification of the HM-Scenario-C reconciliation engine.

Shallow embedding of the core reconciliation engine of the repository
(`src/matching/matcher.py` and `src/analysis/metrics.py`) and proofs of the
specified properties.

Modelling conventions:
* pandas `DataFrame`s become Lean `List`s of structure rows; `NaN`-able
  identifier/date cells become `Option String`.
* Python floats become `ℚ`.  The IEEE special values that actually arise on
  the modelled code paths (the `pct_variance = delta / 0` division in
  `metrics.py`) are made explicit by the three-valued type `PFloat`
  (`fin q` / `pinf` / `nan`), mirroring numpy's `x / 0 = inf` (for `x > 0`)
  and `0 / 0 = nan`, both of which compare `False` under `≤` and `>`.
* `difflib.SequenceMatcher.ratio` (used by `_similarity`) is embedded by its
  algorithm: total size of the Ratcliff/Obershelp matching blocks, obtained
  by recursively splitting around the leftmost longest common run, divided
  by half the total length.  `isjunk=None`, so the junk set is empty; the
  default `autojunk=True` heuristic is modelled: elements occurring in more
  than one percent of a second sequence of length ≥ 200 are purged from the
  index and cannot anchor a block, though the extension loops (which consult
  only the empty junk set) still extend a found block across them.
-/

/-! ## Python string helpers (`str.lower().strip()`) -/

/-- The ASCII whitespace characters removed by Python's `str.strip()`. -/
def isPySpace (c : Char) : Bool :=
  c = ' ' || c = '\t' || c = '\n' || c = '\x0d' || c = '\x0b' || c = '\x0c'

/-- Python `str.strip()` on a list of characters. -/
def pyStrip (l : List Char) : List Char :=
  ((l.dropWhile isPySpace).reverse.dropWhile isPySpace).reverse

/-- Python `s.lower().strip()` (as used in `_similarity` and `_normalize`). -/
def pyLowerStrip (s : String) : List Char :=
  pyStrip (s.toList.map Char.toLower)

/-! ## `difflib.SequenceMatcher` (matching-blocks ratio)

The function `_similarity` calls `SequenceMatcher(None, a, b).ratio()`:
`isjunk=None` (so the junk set is empty) and the default `autojunk=True`.
In `__chain_b`, "popular" elements of `b` (more than `len(b) // 100 + 1`
occurrences when `len(b) >= 200`) are purged from the index `b2j`, so they
cannot anchor a block found by the dynamic programming of
`find_longest_match`; the subsequent extension loops, which consult only
the (empty) junk set, then extend the found block over arbitrary equal
elements, and the final junk-extension loops never fire.  Both phases are
modelled below; the popularity set is computed once from the full second
sequence and passed unchanged into the recursive block decomposition,
exactly as the single `b2j` index is. -/

/-- An element of `b` purged by difflib's `autojunk` heuristic: `b` has at
least 200 elements and the element occurs more than `len(b) // 100 + 1`
times in it. -/
def isPopular (b : List Char) (c : Char) : Bool :=
  decide (200 ≤ b.length) && decide (b.length / 100 + 1 < b.count c)

/-- Length of the common run of `a` and `b` starting at their heads (the
extension loops, which ignore popularity). -/
def runLen : List Char → List Char → Nat
  | x :: xs, y :: ys => if x = y then runLen xs ys + 1 else 0
  | _, _ => 0

/-- Length of the common run of `a` and `b` all of whose `b`-side elements
can anchor a block: the run stops at the first popular element, which is
absent from `b2j`. -/
def runLenP (pop : Char → Bool) : List Char → List Char → Nat
  | x :: xs, y :: ys =>
    if x = y ∧ pop y = false then runLenP pop xs ys + 1 else 0
  | _, _ => 0

/-- One step of `find_longest_match`'s dynamic programming: propose the
anchored common run starting at `(i, j)` and keep it only when strictly
longer than the current best. -/
def flmStep (pop : Char → Bool) (a b : List Char) (i : Nat)
    (best : Nat × Nat × Nat) (j : Nat) : Nat × Nat × Nat :=
  let k := runLenP pop (a.drop i) (b.drop j)
  if best.2.2 < k then (i, j, k) else best

/-- The dynamic-programming phase of `find_longest_match`: the
`(i, j, size)` triple of the longest common anchored run, ties broken by
least `i`, then least `j` (the order in which the scan first attains the
maximum size). -/
def flmScan (pop : Char → Bool) (a b : List Char) : Nat × Nat × Nat :=
  (List.range a.length).foldl
    (fun best i => (List.range b.length).foldl (flmStep pop a b i) best)
    (0, 0, 0)

/-- The function `find_longest_match` over whole sequences: the best
anchored block of the scan, extended backward and then forward over equal
elements (popularity is not consulted by these loops). -/
def flm (pop : Char → Bool) (a b : List Char) : Nat × Nat × Nat :=
  let t := flmScan pop a b
  let bk := runLen ((a.take t.1).reverse) ((b.take t.2.1).reverse)
  let fw := runLen (a.drop (t.1 + t.2.2)) (b.drop (t.2.1 + t.2.2))
  (t.1 - bk, t.2.1 - bk, bk + t.2.2 + fw)

theorem runLen_le_left (a b : List Char) : runLen a b ≤ a.length := by
  induction a generalizing b with
  | nil => cases b <;> simp [runLen]
  | cons x xs ih =>
    cases b with
    | nil => simp [runLen]
    | cons y ys =>
      by_cases h : x = y <;> simp [runLen, h]
      exact ih ys

theorem runLen_le_right (a b : List Char) : runLen a b ≤ b.length := by
  induction a generalizing b with
  | nil => cases b <;> simp [runLen]
  | cons x xs ih =>
    cases b with
    | nil => simp [runLen]
    | cons y ys =>
      by_cases h : x = y <;> simp [runLen, h]
      exact ih ys

theorem runLenP_le_left (pop : Char → Bool) (a b : List Char) :
    runLenP pop a b ≤ a.length := by
  induction a generalizing b with
  | nil => cases b <;> simp [runLenP]
  | cons x xs ih =>
    cases b with
    | nil => simp [runLenP]
    | cons y ys =>
      by_cases h : x = y ∧ pop y = false <;> simp [runLenP, h]
      exact ih ys

theorem runLenP_le_right (pop : Char → Bool) (a b : List Char) :
    runLenP pop a b ≤ b.length := by
  induction a generalizing b with
  | nil => cases b <;> simp [runLenP]
  | cons x xs ih =>
    cases b with
    | nil => simp [runLenP]
    | cons y ys =>
      by_cases h : x = y ∧ pop y = false <;> simp [runLenP, h]
      exact ih ys

/-- Invariant kept by the `find_longest_match` machinery: the current best
block lies inside both sequences. -/
def FlmInv (a b : List Char) (t : Nat × Nat × Nat) : Prop :=
  t.1 + t.2.2 ≤ a.length ∧ t.2.1 + t.2.2 ≤ b.length

theorem flmStep_inv {pop : Char → Bool} {a b : List Char} {i j : Nat}
    (hi : i < a.length) (hj : j < b.length) {best : Nat × Nat × Nat}
    (h : FlmInv a b best) : FlmInv a b (flmStep pop a b i best j) := by
  unfold flmStep FlmInv
  by_cases hlt : best.2.2 < runLenP pop (a.drop i) (b.drop j)
  · simp only [if_pos hlt]
    have h1 := runLenP_le_left pop (a.drop i) (b.drop j)
    have h2 := runLenP_le_right pop (a.drop i) (b.drop j)
    simp only [List.length_drop] at h1 h2
    exact ⟨by omega, by omega⟩
  · simp only [if_neg hlt]; exact h

/-- The triple returned by the scan stays inside both sequences. -/
theorem flmScan_inv (pop : Char → Bool) (a b : List Char) :
    FlmInv a b (flmScan pop a b) := by
  unfold flmScan
  refine List.foldlRecOn _ _ _ ⟨by simp, by simp⟩ ?_
  intro best hbest i hi
  refine List.foldlRecOn _ _ _ hbest ?_
  intro best' hbest' j hj
  exact flmStep_inv (List.mem_range.mp hi) (List.mem_range.mp hj) hbest'

/-- The extended block returned by `flm` stays inside both sequences. -/
theorem flm_bounds (pop : Char → Bool) (a b : List Char) :
    FlmInv a b (flm pop a b) := by
  obtain ⟨h1, h2⟩ := flmScan_inv pop a b
  unfold flm FlmInv
  dsimp only
  have hbk1 := runLen_le_left ((a.take (flmScan pop a b).1).reverse)
    ((b.take (flmScan pop a b).2.1).reverse)
  have hbk2 := runLen_le_right ((a.take (flmScan pop a b).1).reverse)
    ((b.take (flmScan pop a b).2.1).reverse)
  have hfw1 := runLen_le_left (a.drop ((flmScan pop a b).1 + (flmScan pop a b).2.2))
    (b.drop ((flmScan pop a b).2.1 + (flmScan pop a b).2.2))
  have hfw2 := runLen_le_right (a.drop ((flmScan pop a b).1 + (flmScan pop a b).2.2))
    (b.drop ((flmScan pop a b).2.1 + (flmScan pop a b).2.2))
  simp only [List.length_reverse, List.length_take,
    List.length_drop] at hbk1 hbk2 hfw1 hfw2
  omega

/-- Total size of the Ratcliff/Obershelp matching blocks
(`sum(size for _, _, size in get_matching_blocks())`), written with an
explicit structural fuel so that the kernel can evaluate it; every block
found removes at least one character from each side, so a fuel of
`a.length + b.length` always suffices (`mtotalF_fuel_irrel`).  The
popularity predicate is fixed (it comes from the original full second
sequence, like `b2j`). -/
def mtotalF (pop : Char → Bool) : Nat → List Char → List Char → Nat
  | 0, _, _ => 0
  | fuel + 1, a, b =>
    let t := flm pop a b
    if t.2.2 = 0 then 0
    else
      mtotalF pop fuel (a.take t.1) (b.take t.2.1) + t.2.2 +
        mtotalF pop fuel (a.drop (t.1 + t.2.2)) (b.drop (t.2.1 + t.2.2))

/-- The matching-blocks total of `difflib.SequenceMatcher`, with the
popularity set taken from the full second sequence. -/
def mtotal (a b : List Char) : Nat :=
  mtotalF (isPopular b) (a.length + b.length) a b

theorem mtotalF_fuel_irrel (pop : Char → Bool) :
    ∀ (f g : Nat) (a b : List Char), a.length + b.length ≤ f →
      a.length + b.length ≤ g → mtotalF pop f a b = mtotalF pop g a b := by
  intro f
  induction f with
  | zero =>
    intro g a b hf _
    have ha : a = [] := List.length_eq_zero.mp (by omega)
    have hb : b = [] := List.length_eq_zero.mp (by omega)
    subst ha; subst hb
    cases g with
    | zero => rfl
    | succ g => rfl
  | succ f ih =>
    intro g a b hf hg
    cases g with
    | zero =>
      have ha : a = [] := List.length_eq_zero.mp (by omega)
      have hb : b = [] := List.length_eq_zero.mp (by omega)
      subst ha; subst hb
      rfl
    | succ g =>
      show mtotalF pop (f + 1) a b = mtotalF pop (g + 1) a b
      simp only [mtotalF]
      by_cases h : (flm pop a b).2.2 = 0
      · simp [h]
      · simp only [h, if_neg h]
        obtain ⟨h1, h2⟩ := flm_bounds pop a b
        have e1 := ih g (a.take (flm pop a b).1) (b.take (flm pop a b).2.1)
          (by simp only [List.length_take]; omega)
          (by simp only [List.length_take]; omega)
        have e2 := ih g (a.drop ((flm pop a b).1 + (flm pop a b).2.2))
          (b.drop ((flm pop a b).2.1 + (flm pop a b).2.2))
          (by simp only [List.length_drop]; omega)
          (by simp only [List.length_drop]; omega)
        rw [e1, e2]

/-- Embeds `difflib.SequenceMatcher(None, a, b).ratio()`:
`2 * M / T` where `T` is the total length, and `1.0` when `T = 0`. -/
def smScore (a b : List Char) : ℚ :=
  if a.length + b.length = 0 then 1
  else 2 * (mtotal a b : ℚ) / ((a.length : ℚ) + (b.length : ℚ))

/-- Embeds `matcher._similarity`: 0 when either string is falsy (empty), otherwise
the `SequenceMatcher` ratio of the lower-cased, stripped inputs. -/
def _similarity (a b : String) : ℚ :=
  if a = "" ∨ b = "" then 0
  else smScore (pyLowerStrip a) (pyLowerStrip b)

/-! ## `analysis/metrics.py`: variance and anomaly classification

The matched frames handed to `metrics.py` (as built by the repository's
tests) carry the columns `order_id_client`, `job_id_internal`, `job_date`,
`site`, `service_type`, `amount_client` and `revenue_internal`; the two
monetary columns are the ones `_resolve_revenue_columns` detects on that
schema.  Identifier cells may be `NaN` (`Option.none`).  `anomaly_reason`
(a pure presentation string updated by the same masks in the same order as
`anomaly`) is not modelled. -/

/-- The IEEE values `pct_variance` can take on the modelled code path:
a finite value, `+inf` (positive delta divided by a zero average) or
`nan` (`0.0 / 0.0`). -/
inductive PFloat where
  | fin (q : ℚ)
  | pinf
  | nan
deriving DecidableEq, Repr

/-- numpy division `delta / avg` for `delta ≥ 0`: finite when `avg ≠ 0`,
`0/0 = nan`, and `delta/0 = inf` for `delta > 0`. -/
def npDiv (delta avg : ℚ) : PFloat :=
  if avg = 0 then (if delta = 0 then .nan else .pinf) else .fin (delta / avg)

/-- Comparison `x ≤ t` under pandas/numpy semantics: `False` on `nan` and on `+inf`. -/
def pleTol (x : PFloat) (t : ℚ) : Bool :=
  match x with
  | .fin q => decide (q ≤ t)
  | .pinf => false
  | .nan => false

/-- Comparison `x > t` under pandas/numpy semantics: `True` on `+inf`, `False` on `nan`. -/
def pgtTol (x : PFloat) (t : ℚ) : Bool :=
  match x with
  | .fin q => decide (t < q)
  | .pinf => true
  | .nan => false

/-- A row of the matched frame fed to `metrics.py`. -/
structure MRow where
  order_id_client : Option String
  job_id_internal : Option String
  job_date : String
  site : String
  service_type : String
  amount_client : ℚ
  revenue_internal : ℚ
deriving DecidableEq, Repr

/-- A row extended by `calculate_revenue_variance`. -/
structure VRow extends MRow where
  revenue_delta : ℚ
  pct_variance : PFloat
  within_tolerance : Bool
deriving DecidableEq, Repr

/-- Per-row body of `calculate_revenue_variance`:
`revenue_delta = |floor(client) − floor(internal)|`,
`pct_variance = revenue_delta / ((floor(client)+floor(internal))/2) × 100`,
`within_tolerance = pct_variance ≤ tolerance` (inclusive). -/
def varianceRow (tolerance : ℚ) (r : MRow) : VRow :=
  let fc : ℚ := (Int.floor r.amount_client : ℤ)
  let fi : ℚ := (Int.floor r.revenue_internal : ℤ)
  let delta := |fc - fi|
  let avg := (fc + fi) / 2
  let pct := match npDiv delta avg with
    | .fin q => PFloat.fin (q * 100)
    | x => x
  { r with
    revenue_delta := delta
    pct_variance := pct
    within_tolerance := pleTol pct tolerance }

/-- Embeds `metrics.calculate_revenue_variance` (the empty frame passes through
unchanged, which for a list is the same as mapping over nothing). -/
def calculate_revenue_variance (rows : List MRow) (tolerance : ℚ) :
    List VRow :=
  rows.map (varianceRow tolerance)

/-- A row extended by `detect_anomalies` (`anomaly_reason` not modelled). -/
structure ARow extends VRow where
  anomaly : Option String
deriving DecidableEq, Repr

/-- The mask `rate_change_mask = df["pct_variance"] > tolerance`. -/
def rateChangeMask (tolerance : ℚ) (v : VRow) : Bool :=
  pgtTol v.pct_variance tolerance

/-- The mask `duplicate_mask = df.duplicated(subset=["job_date","site"],
keep=False)`: true iff at least two rows of the frame share this row's
`(job_date, site)` pair. -/
def duplicateMask (vs : List VRow) (v : VRow) : Bool :=
  decide (2 ≤ vs.countP (fun w => w.job_date = v.job_date ∧ w.site = v.site))

/-- The mask `missing_client_mask = df["order_id_client"].isna()`. -/
def missingClientMask (v : VRow) : Bool := v.order_id_client.isNone

/-- The mask `missing_internal_mask = df["job_id_internal"].isna()`. -/
def missingInternalMask (v : VRow) : Bool := v.job_id_internal.isNone

/-- A single `df.loc[mask, "anomaly"] = label` assignment: rows in the mask get
the new label, every other row keeps what it had. -/
def maskAssign (cur : Option String) (mask : Bool) (label : String) :
    Option String :=
  if mask then some label else cur

/-- The `anomaly` cell produced for `v` by `detect_anomalies`' four
sequential mask assignments, in source order: `rate_change`, then
`duplicate`, then `missing_job`, then `new_job`. -/
def anomalyCell (vs : List VRow) (tolerance : ℚ) (v : VRow) : Option String :=
  maskAssign
    (maskAssign
      (maskAssign
        (maskAssign none (rateChangeMask tolerance v) "rate_change")
        (duplicateMask vs v) "duplicate")
      (missingClientMask v) "missing_job")
    (missingInternalMask v) "new_job"

/-- Embeds `metrics.detect_anomalies`: run the variance calculation, then label
each row by the four mask assignments. -/
def detect_anomalies (rows : List MRow) (tolerance : ℚ) : List ARow :=
  let vs := calculate_revenue_variance rows tolerance
  vs.map (fun v => { v with anomaly := anomalyCell vs tolerance v })

/-! ## `matching/matcher.py`: deterministic and fuzzy matching

The job tables carry the schema produced by the repository's data layer and
exercised by its tests: client rows `(order_id, job_date, site,
service_type, amount)` and internal rows `(job_id, job_date, site,
service_type, revenue)`.  Identifier and date cells may be `NaN`
(`Option.none`); pandas merges match `NaN` join keys to each other, which
`Option` equality mirrors. -/

/-- Embeds `matcher._normalize` (for a string argument):
`str(s).lower().strip()`. -/
def _normalize (s : String) : String := String.mk (pyLowerStrip s)

/-- A row of the client job table. -/
structure ClientRow where
  order_id : Option String
  job_date : Option String
  site : String
  service_type : String
  amount : ℚ
deriving DecidableEq, Repr

/-- A row of the internal job table. -/
structure InternalRow where
  job_id : Option String
  job_date : Option String
  site : String
  service_type : String
  revenue : ℚ
deriving DecidableEq, Repr

/-- A matched row: both records' own columns (on this schema the shared
columns are exactly the join keys, so the deterministic merge emits no
suffixed copies) plus `confidence` and `match_type`. -/
structure MatchedPair where
  order_id : Option String
  job_id : Option String
  job_date : Option String
  site : String
  service_type : String
  amount : ℚ
  revenue : ℚ
  confidence : ℚ
  match_type : String
deriving DecidableEq, Repr

/-- The join-key tuple `(job_date, site, service_type)` of a client row. -/
def ckey (c : ClientRow) : Option String × String × String :=
  (c.job_date, c.site, c.service_type)

/-- The join-key tuple of an internal row. -/
def ikey (i : InternalRow) : Option String × String × String :=
  (i.job_date, i.site, i.service_type)

/-- The join-key tuple of a matched row. -/
def pkey (p : MatchedPair) : Option String × String × String :=
  (p.job_date, p.site, p.service_type)

/-- A deterministic match: the merged row of a client and an internal row
agreeing on the join keys; `confidence = 1.0`,
`match_type = "deterministic"`. -/
def mkDetPair (c : ClientRow) (i : InternalRow) : MatchedPair :=
  { order_id := c.order_id
    job_id := i.job_id
    job_date := c.job_date
    site := c.site
    service_type := c.service_type
    amount := c.amount
    revenue := i.revenue
    confidence := 1
    match_type := "deterministic" }

/-- Embeds `matcher.deterministic_match` on the fixed schema (where the
join keys `[job_date, site, service_type]` are present in both tables): the
inner equi-join, combinatorial within equal key groups, left-row order
first as pandas produces it. -/
def deterministic_match (cl : List ClientRow) (il : List InternalRow) :
    List MatchedPair :=
  cl.flatMap (fun c =>
    (il.filter (fun i => decide (ikey i = ckey c))).map (mkDetPair c))

/-- Embeds `matcher.get_unmatched` for the client table: rows whose
join-key tuple does not occur among the matched rows' key tuples (when the
matched set is empty every row is returned, which the filter also does). -/
def get_unmatched_client (cl : List ClientRow)
    (matched : List MatchedPair) : List ClientRow :=
  cl.filter (fun c => decide (ckey c ∉ matched.map pkey))

/-- Embeds `matcher.get_unmatched` for the internal table. -/
def get_unmatched_internal (il : List InternalRow)
    (matched : List MatchedPair) : List InternalRow :=
  il.filter (fun i => decide (ikey i ∉ matched.map pkey))

/-- Python `round(x, 2)` on the exact value: round half to even at two
decimal places. -/
def roundHalfEven (x : ℚ) : ℤ :=
  let f := Int.floor x
  let r := x - f
  if r < 1/2 then f
  else if 1/2 < r then f + 1
  else if Even f then f else f + 1

/-- Python `round(score, 2)`. -/
def pyRound2 (x : ℚ) : ℚ := (roundHalfEven (x * 100) : ℤ) / 100

/-- The fuzzy score of a client/internal row pair:
`(similarity(site, site) + similarity(service_type, service_type)) / 2`. -/
def scorePair (c : ClientRow) (i : InternalRow) : ℚ :=
  (_similarity c.site i.site + _similarity c.service_type i.service_type) / 2

/-- One iteration of `fuzzy_match`'s candidate loop: keep a candidate only
when its score strictly beats the current best (`score > best_score`). -/
def bestCandStep (c : ClientRow) (best : ℚ × Option InternalRow)
    (i : InternalRow) : ℚ × Option InternalRow :=
  if best.1 < scorePair c i then (scorePair c i, some i) else best

/-- The best-candidate scan of `fuzzy_match`: start from
`best_score = 0.0, best_match = None` and fold the candidate loop. -/
def bestCand (c : ClientRow) (cands : List InternalRow) :
    ℚ × Option InternalRow :=
  cands.foldl (bestCandStep c) (0, none)

/-- A fuzzy match: `{**c_row.to_dict(), **best_match.to_dict()}` — on the
shared columns the internal row's values win — plus the rounded confidence
and `match_type = "fuzzy"`. -/
def mkFuzzyPair (c : ClientRow) (i : InternalRow) (conf : ℚ) : MatchedPair :=
  { order_id := c.order_id
    job_id := i.job_id
    job_date := i.job_date
    site := i.site
    service_type := i.service_type
    amount := c.amount
    revenue := i.revenue
    confidence := conf
    match_type := "fuzzy" }

/-- The per-client-row body of `fuzzy_match`'s loop: skip rows with a null
`job_date` or no same-date internal group, scan the same-date candidates,
and emit the best candidate exactly when one was retained
(`best_match is not None`) and its score reached the threshold. -/
def fuzzyRowResult (il : List InternalRow) (threshold : ℚ)
    (c : ClientRow) : Option MatchedPair :=
  match c.job_date with
  | none => none
  | some d =>
    let cands := il.filter (fun i => decide (i.job_date = some d))
    match bestCand c cands with
    | (s, some i) =>
      if threshold ≤ s then some (mkFuzzyPair c i (pyRound2 s)) else none
    | (_, none) => none

/-- Embeds `matcher.fuzzy_match`: empty result when either input is empty,
otherwise one optional emission per client row in order. -/
def fuzzy_match (cl : List ClientRow) (il : List InternalRow)
    (threshold : ℚ) : List MatchedPair :=
  if cl.isEmpty || il.isEmpty then []
  else cl.filterMap (fuzzyRowResult il threshold)

/-- The errors `reconcile` raises at entry (both are `ValueError`s in the
source; the spec's taxonomy names them `EmptyInputError` and
`ConfigurationError`).  On the fixed schema the join-key intersection is
never empty, so only `emptyInput` can occur. -/
inductive ReconcileError where
  | emptyInput
  | noJoinKeys
deriving DecidableEq, Repr

/-- Embeds `matcher.reconcile`: entry check, local site normalization,
deterministic pass, per-side leftovers by key, fuzzy pass on the leftovers,
concatenation, and final unmatched sets recomputed from the identifier
columns of the combined matches (`dropna` first, so rows with a null
identifier are never filtered out). -/
def reconcile (cl : List ClientRow) (il : List InternalRow)
    (threshold : ℚ) :
    Except ReconcileError
      (List MatchedPair × List ClientRow × List InternalRow) :=
  if cl.isEmpty || il.isEmpty then .error .emptyInput
  else
    let cl' := cl.map (fun c => { c with site := _normalize c.site })
    let il' := il.map (fun i => { i with site := _normalize i.site })
    let det := deterministic_match cl' il'
    let umC := get_unmatched_client cl' det
    let umI := get_unmatched_internal il' det
    let fz := fuzzy_match umC umI threshold
    let allMatches := det ++ fz
    let cids := allMatches.filterMap (fun p => p.order_id)
    let jids := allMatches.filterMap (fun p => p.job_id)
    let ucF := cl'.filter (fun c =>
      match c.order_id with
      | some v => decide (v ∉ cids)
      | none => true)
    let uiF := il'.filter (fun i =>
      match i.job_id with
      | some v => decide (v ∉ jids)
      | none => true)
    .ok (allMatches, ucF, uiF)

/-! ## The dictionary view of a fuzzy match (`{**c_row, **i_row}`) -/

/-- A pandas cell as `to_dict()` exposes it. -/
inductive PyVal where
  | str (v : String)
  | num (v : ℚ)
  | na
deriving DecidableEq, Repr

/-- A nullable identifier/date cell. -/
def optCell : Option String → PyVal
  | some v => .str v
  | none => .na

/-- The association list `c_row.to_dict()` in column order. -/
def clientRowDict (c : ClientRow) : List (String × PyVal) :=
  [("order_id", optCell c.order_id),
   ("job_date", optCell c.job_date),
   ("site", .str c.site),
   ("service_type", .str c.service_type),
   ("amount", .num c.amount)]

/-- The association list `i_row.to_dict()` in column order. -/
def internalRowDict (i : InternalRow) : List (String × PyVal) :=
  [("job_id", optCell i.job_id),
   ("job_date", optCell i.job_date),
   ("site", .str i.site),
   ("service_type", .str i.service_type),
   ("revenue", .num i.revenue)]

/-- Python `{**d1, **d2}`: keys of `d1` in order with `d2`'s value where
both define one, then the keys only `d2` has, in `d2`'s order. -/
def dictMerge (d1 d2 : List (String × PyVal)) : List (String × PyVal) :=
  d1.map (fun kv =>
    match d2.find? (fun p => decide (p.1 = kv.1)) with
    | some p => p
    | none => kv) ++
  d2.filter (fun kv => decide (¬ d1.any (fun p => decide (p.1 = kv.1))))

/-- The dictionary `fuzzy_match` builds for an emitted pair:
`combined = {**c_row.to_dict(), **best_match.to_dict()}` followed by the
`confidence` and `match_type` assignments (fresh keys, hence appended). -/
def fuzzyCombinedDict (c : ClientRow) (i : InternalRow) (conf : ℚ) :
    List (String × PyVal) :=
  dictMerge (clientRowDict c) (internalRowDict i) ++
    [("confidence", .num conf), ("match_type", .str "fuzzy")]

/-- Lookup of a column in a row dictionary. -/
def dlookup (k : String) (d : List (String × PyVal)) : Option PyVal :=
  (d.find? (fun p => decide (p.1 = k))).map (fun p => p.2)

/-! ## Concrete rows used by witnesses and counterexamples -/

/-- A matched row at exactly the tolerance boundary:
`floor` values 201 and 199, so `pct_variance = 2/200 × 100 = 1`. -/
def mrowBoundary : MRow :=
  { order_id_client := some "1", job_id_internal := some "101",
    job_date := "2025-10-01", site := "Site A", service_type := "inspection",
    amount_client := 201, revenue_internal := 199 }

/-- A matched row with both monetary values zero (`0/0`). -/
def mrowZero : MRow :=
  { order_id_client := some "1", job_id_internal := some "101",
    job_date := "2025-10-01", site := "Site A", service_type := "inspection",
    amount_client := 0, revenue_internal := 0 }

/-! ## C7: the tolerance boundary is inclusive -/

/-- C7: a row of the Variance Calculator's output whose `pct_variance` is
exactly the configured tolerance has `within_tolerance = true` — the
boundary comparison `pct_variance <= tolerance` is inclusive. -/
theorem variance_tolerance_boundary_inclusive
    (rows : List MRow) (tolerance : ℚ) (v : VRow)
    (hv : v ∈ calculate_revenue_variance rows tolerance)
    (hp : v.pct_variance = PFloat.fin tolerance) :
    v.within_tolerance = true := by
  obtain ⟨r, _, rfl⟩ := List.mem_map.mp hv
  have hw : (varianceRow tolerance r).within_tolerance
      = pleTol ((varianceRow tolerance r).pct_variance) tolerance := rfl
  rw [hw, hp]
  simp [pleTol]

/-- Witness for C7 at the concrete boundary row `mrowBoundary` with
tolerance `1` (the default): `pct_variance` is exactly `1` and the flag is
set. -/
theorem variance_tolerance_boundary_inclusive_witness :
    (varianceRow 1 mrowBoundary).within_tolerance = true := by
  apply variance_tolerance_boundary_inclusive [mrowBoundary] 1
  · simp [calculate_revenue_variance]
  · show (varianceRow 1 mrowBoundary).pct_variance = PFloat.fin 1
    unfold varianceRow npDiv mrowBoundary
    norm_num

/-! ## C8: zero-average degeneracy -/

/-- General zero-floor-sum behaviour of the variance division (for
arbitrary, possibly negative, values): NaN when both floors are zero,
`+inf` when they are opposite nonzero values; either way no error and
`within_tolerance = false`. -/
theorem varianceRow_zero_sum
    (rows : List MRow) (tolerance : ℚ) (v : VRow)
    (hv : v ∈ calculate_revenue_variance rows tolerance)
    (h : Int.floor v.amount_client + Int.floor v.revenue_internal = 0) :
    v.pct_variance
        = (if Int.floor v.amount_client = 0 then PFloat.nan else PFloat.pinf) ∧
      v.within_tolerance = false := by
  obtain ⟨r, _, rfl⟩ := List.mem_map.mp hv
  have ha : (varianceRow tolerance r).amount_client = r.amount_client := rfl
  have hb : (varianceRow tolerance r).revenue_internal = r.revenue_internal := rfl
  rw [ha, hb] at h
  rw [ha]
  have havg : ((Int.floor r.amount_client : ℚ) + (Int.floor r.revenue_internal : ℚ)) / 2 = 0 := by
    rw [div_eq_zero_iff]
    left
    exact_mod_cast congrArg (fun z : ℤ => (z : ℚ)) h
  have hdelta : |((Int.floor r.amount_client : ℤ) : ℚ) - ((Int.floor r.revenue_internal : ℤ) : ℚ)| = 0
      ↔ Int.floor r.amount_client = 0 := by
    constructor
    · intro h0
      rw [abs_eq_zero, sub_eq_zero] at h0
      have : Int.floor r.amount_client = Int.floor r.revenue_internal := by exact_mod_cast h0
      omega
    · intro h0
      have h1 : Int.floor r.revenue_internal = 0 := by omega
      rw [h0, h1]
      norm_num
  by_cases hz : Int.floor r.amount_client = 0
  · have h1 : Int.floor r.revenue_internal = 0 := by omega
    refine ⟨?_, ?_⟩ <;>
      simp [varianceRow, npDiv, hz, h1, pleTol]
  · have hd : |((Int.floor r.amount_client : ℤ) : ℚ) - ((Int.floor r.revenue_internal : ℤ) : ℚ)| ≠ 0 :=
      fun h0 => hz (hdelta.mp h0)
    refine ⟨?_, ?_⟩ <;>
      · simp only [varianceRow, npDiv]
        rw [if_pos havg, if_neg hd]
        simp [pleTol, hz]

/-! ## C9: the empty-input check at `reconcile` entry -/

/-- C9: `reconcile` fails with the empty-input error exactly when at least
one input table has zero rows; the check is the first statement of the
function, before any matching work. -/
theorem reconcile_empty_input_iff (cl : List ClientRow)
    (il : List InternalRow) (threshold : ℚ) :
    reconcile cl il threshold = .error .emptyInput ↔ cl = [] ∨ il = [] := by
  unfold reconcile
  by_cases hc : (cl.isEmpty || il.isEmpty) = true
  · rw [if_pos hc]
    simp only [Bool.or_eq_true, List.isEmpty_iff] at hc
    simpa using hc
  · rw [if_neg hc]
    simp only [Bool.or_eq_true, List.isEmpty_iff, not_or] at hc
    simp [hc.1, hc.2]

/-- Witness for C9 on concrete tables: an empty client table raises the
empty-input error, and a pair of one-row tables does not. -/
theorem reconcile_empty_input_iff_witness :
    reconcile [] [] (8/10) = .error .emptyInput :=
  (reconcile_empty_input_iff [] [] (8/10)).mpr (Or.inl rfl)

/-! ## C10: the fuzzy dictionary merge -/

/-- C10: in the dictionary a fuzzy match is built from
(`{**c_row.to_dict(), **best_match.to_dict()}`), every column present in
both rows — `job_date`, `site`, `service_type` — carries the internal
row's value (the client's is overwritten), the one-sided columns keep
their side's value, the key set contains no `_client`/`_internal`
suffixed copies, and the embedded `MatchedPair` a fuzzy emission produces
agrees with those dictionary lookups. -/
theorem fuzzy_merge_internal_wins (c : ClientRow) (i : InternalRow)
    (conf : ℚ) :
    dlookup "job_date" (fuzzyCombinedDict c i conf) = some (optCell i.job_date) ∧
    dlookup "site" (fuzzyCombinedDict c i conf) = some (.str i.site) ∧
    dlookup "service_type" (fuzzyCombinedDict c i conf) = some (.str i.service_type) ∧
    dlookup "order_id" (fuzzyCombinedDict c i conf) = some (optCell c.order_id) ∧
    dlookup "amount" (fuzzyCombinedDict c i conf) = some (.num c.amount) ∧
    dlookup "job_id" (fuzzyCombinedDict c i conf) = some (optCell i.job_id) ∧
    dlookup "revenue" (fuzzyCombinedDict c i conf) = some (.num i.revenue) ∧
    (fuzzyCombinedDict c i conf).map Prod.fst =
      ["order_id", "job_date", "site", "service_type", "amount",
       "job_id", "revenue", "confidence", "match_type"] ∧
    (mkFuzzyPair c i conf).job_date = i.job_date ∧
    (mkFuzzyPair c i conf).site = i.site ∧
    (mkFuzzyPair c i conf).service_type = i.service_type ∧
    (mkFuzzyPair c i conf).order_id = c.order_id ∧
    (mkFuzzyPair c i conf).amount = c.amount := by
  refine ⟨rfl, rfl, rfl, rfl, rfl, rfl, rfl, rfl, rfl, rfl, rfl, rfl, rfl⟩

/-! ## C5: anomaly labelling precedence -/

/-- C5: the Anomaly Classifier stores at most one label per row (a single
`anomaly` cell), and because the four mask assignments run in the fixed
order `rate_change`, `duplicate`, `missing_job`, `new_job` with later
assignments overwriting earlier ones, the label of every row is the
last-evaluated rule that fires. -/
theorem detect_anomalies_precedence (rows : List MRow) (tolerance : ℚ) :
    (detect_anomalies rows tolerance).map (fun a => a.anomaly) =
      (calculate_revenue_variance rows tolerance).map (fun v =>
        if missingInternalMask v then some "new_job"
        else if missingClientMask v then some "missing_job"
        else if duplicateMask (calculate_revenue_variance rows tolerance) v
          then some "duplicate"
        else if rateChangeMask tolerance v then some "rate_change"
        else none) := by
  unfold detect_anomalies
  rw [List.map_map]
  apply List.map_congr_left
  intro v _
  show anomalyCell (calculate_revenue_variance rows tolerance) tolerance v = _
  unfold anomalyCell maskAssign
  by_cases h4 : missingInternalMask v <;>
    by_cases h3 : missingClientMask v <;>
      by_cases h2 : duplicateMask (calculate_revenue_variance rows tolerance) v <;>
        by_cases h1 : rateChangeMask tolerance v <;>
          simp [h1, h2, h3, h4]

/-! ## C6: similarity scorer properties -/

theorem runLen_self (l : List Char) : runLen l l = l.length := by
  induction l with
  | nil => rfl
  | cons x xs ih => simp [runLen, ih]

theorem foldl_const {α β : Type} (f : β → α → β) (b : β) (l : List α)
    (h : ∀ a ∈ l, f b a = b) : l.foldl f b = b := by
  induction l with
  | nil => rfl
  | cons x xs ih =>
    rw [List.foldl_cons, h x (List.mem_cons_self x xs)]
    exact ih (fun a ha => h a (List.mem_cons_of_mem x ha))

/-- Domination by the second sequence's diagonal: a popularity-anchored run
shared with `ys` is no longer than the anchored run of `ys` with itself. -/
theorem runLenP_le_right_diag (pop : Char → Bool) (xs ys : List Char) :
    runLenP pop xs ys ≤ runLenP pop ys ys := by
  induction xs generalizing ys with
  | nil => cases ys <;> simp [runLenP]
  | cons x xs ih =>
    cases ys with
    | nil => simp [runLenP]
    | cons y ys =>
      simp only [runLenP, eq_self_iff_true, true_and]
      by_cases h : x = y ∧ pop y = false
      · rw [if_pos h, if_pos h.2]
        exact Nat.succ_le_succ (ih ys)
      · rw [if_neg h]
        exact Nat.zero_le _

/-- Domination by the first sequence's diagonal. -/
theorem runLenP_le_left_diag (pop : Char → Bool) (xs ys : List Char) :
    runLenP pop xs ys ≤ runLenP pop xs xs := by
  induction xs generalizing ys with
  | nil => simp [runLenP]
  | cons x xs ih =>
    cases ys with
    | nil => simp [runLenP]
    | cons y ys =>
      simp only [runLenP, eq_self_iff_true, true_and]
      by_cases h : x = y ∧ pop y = false
      · have hx : pop x = false := by rw [h.1]; exact h.2
        rw [if_pos h, if_pos hx]
        exact Nat.succ_le_succ (ih ys)
      · rw [if_neg h]
        exact Nat.zero_le _

/-- A scan step whose proposed run cannot beat the current best keeps the
best unchanged (updates require strict improvement). -/
theorem flmStep_keep {pop : Char → Bool} {a b : List Char} {i j : Nat}
    {best : Nat × Nat × Nat}
    (h : runLenP pop (a.drop i) (b.drop j) ≤ best.2.2) :
    flmStep pop a b i best j = best := by
  unfold flmStep
  dsimp only
  rw [if_neg (by omega)]

/-- Processing one row `i` of the scan on `(l, l)`: a diagonal best that
dominates the diagonal runs of all earlier rows stays diagonal and comes to
dominate the diagonal run of row `i` as well.  Candidates left of the
diagonal are bounded by an earlier column's diagonal run, candidates right
of it by row `i`'s own diagonal run, so only the diagonal cell `(i, i)` can
strictly improve the best. -/
theorem row_diag (pop : Char → Bool) (l : List Char) (i n : Nat)
    (hi : i < n) (best : Nat × Nat × Nat) (hd : best.1 = best.2.1)
    (hb : ∀ m, m < i → runLenP pop (l.drop m) (l.drop m) ≤ best.2.2) :
    ((List.range n).foldl (flmStep pop l l i) best).1 =
        ((List.range n).foldl (flmStep pop l l i) best).2.1 ∧
      ∀ m, m < i + 1 →
        runLenP pop (l.drop m) (l.drop m) ≤
          ((List.range n).foldl (flmStep pop l l i) best).2.2 := by
  have hsplit : List.range n =
      (List.range i ++ [i]) ++
        (List.range (n - (i + 1))).map (fun x => (i + 1) + x) := by
    rw [← List.range_succ, ← List.range_add]
    congr 1
    omega
  have hpre : (List.range i).foldl (flmStep pop l l i) best = best := by
    refine foldl_const _ _ _ ?_
    intro j hj
    exact flmStep_keep (le_trans
      (runLenP_le_right_diag pop (l.drop i) (l.drop j))
      (hb j (List.mem_range.mp hj)))
  rw [hsplit, List.foldl_append, List.foldl_append, hpre]
  simp only [List.foldl_cons, List.foldl_nil]
  set best1 := flmStep pop l l i best i with hbest1
  have hkey : best1.1 = best1.2.1 ∧
      ∀ m, m < i + 1 → runLenP pop (l.drop m) (l.drop m) ≤ best1.2.2 := by
    rw [hbest1]
    unfold flmStep
    dsimp only
    by_cases hlt : best.2.2 < runLenP pop (l.drop i) (l.drop i)
    · rw [if_pos hlt]
      refine ⟨rfl, ?_⟩
      intro m hm
      rcases Nat.lt_succ_iff_lt_or_eq.mp hm with hm1 | hm1
      · exact le_trans (hb m hm1) (le_of_lt hlt)
      · subst hm1; exact le_refl _
    · rw [if_neg hlt]
      refine ⟨hd, ?_⟩
      intro m hm
      rcases Nat.lt_succ_iff_lt_or_eq.mp hm with hm1 | hm1
      · exact hb m hm1
      · subst hm1; omega
  have hpost : ((List.range (n - (i + 1))).map (fun x => (i + 1) + x)).foldl
      (flmStep pop l l i) best1 = best1 := by
    refine foldl_const _ _ _ ?_
    intro j hj
    exact flmStep_keep (le_trans
      (runLenP_le_left_diag pop (l.drop i) (l.drop j))
      (hkey.2 i (Nat.lt_succ_self i)))
  rw [hpost]
  exact hkey

/-- The whole scan on `(l, l)`, row prefix by row prefix: the best block
stays on the diagonal and dominates the diagonal runs of the processed
rows. -/
theorem scan_diag_aux (pop : Char → Bool) (l : List Char) :
    ∀ r : Nat, r ≤ l.length →
      ((List.range r).foldl
            (fun best i =>
              (List.range l.length).foldl (flmStep pop l l i) best)
            (0, 0, 0)).1 =
          ((List.range r).foldl
              (fun best i =>
                (List.range l.length).foldl (flmStep pop l l i) best)
              (0, 0, 0)).2.1 ∧
        ∀ m, m < r →
          runLenP pop (l.drop m) (l.drop m) ≤
            ((List.range r).foldl
                (fun best i =>
                  (List.range l.length).foldl (flmStep pop l l i) best)
                (0, 0, 0)).2.2 := by
  intro r
  induction r with
  | zero =>
    intro _
    exact ⟨rfl, fun m hm => absurd hm (Nat.not_lt_zero m)⟩
  | succ r ih =>
    intro hr
    obtain ⟨hd, hb⟩ := ih (by omega)
    rw [List.range_succ, List.foldl_append]
    simp only [List.foldl_cons, List.foldl_nil]
    exact row_diag pop l r l.length (by omega) _ hd hb

/-- The scan on identical sequences returns a block on the diagonal. -/
theorem flmScan_diag (pop : Char → Bool) (l : List Char) :
    (flmScan pop l l).1 = (flmScan pop l l).2.1 := by
  unfold flmScan
  exact (scan_diag_aux pop l l.length le_rfl).1

/-- On identical sequences the scan's diagonal best block extends backward
to the start and forward to the end, so `find_longest_match` returns the
whole sequence whatever the popularity set is: the extension loops do not
consult it. -/
theorem flm_self (pop : Char → Bool) (l : List Char) :
    flm pop l l = (0, 0, l.length) := by
  have hd : (flmScan pop l l).1 = (flmScan pop l l).2.1 := flmScan_diag pop l
  have h12 := flmScan_inv pop l l
  unfold FlmInv at h12
  obtain ⟨h1, h2⟩ := h12
  unfold flm
  dsimp only
  rw [← hd, runLen_self, runLen_self]
  simp only [List.length_reverse, List.length_take, List.length_drop]
  rw [Nat.min_eq_left (by omega : (flmScan pop l l).1 ≤ l.length)]
  simp only [Prod.mk.injEq, Nat.sub_self, eq_self_iff_true, true_and]
  omega

theorem mtotalF_nil_nil (pop : Char → Bool) (f : Nat) :
    mtotalF pop f [] [] = 0 := by
  cases f with
  | zero => rfl
  | succ f => rfl

theorem mtotalF_succ (pop : Char → Bool) (f : Nat) (a b : List Char) :
    mtotalF pop (f + 1) a b =
      if (flm pop a b).2.2 = 0 then 0
      else
        mtotalF pop f (a.take (flm pop a b).1) (b.take (flm pop a b).2.1) +
            (flm pop a b).2.2 +
          mtotalF pop f (a.drop ((flm pop a b).1 + (flm pop a b).2.2))
            (b.drop ((flm pop a b).2.1 + (flm pop a b).2.2)) := rfl

theorem mtotal_self (l : List Char) (h : l ≠ []) : mtotal l l = l.length := by
  obtain ⟨n, hn⟩ : ∃ n, l.length = n + 1 := by
    cases l with
    | nil => exact absurd rfl h
    | cons x xs => exact ⟨xs.length, rfl⟩
  unfold mtotal
  rw [hn, show (n + 1) + (n + 1) = (n + n + 1) + 1 from by omega,
    mtotalF_succ, flm_self, hn]
  simp only [List.take_zero, Nat.zero_add]
  rw [if_neg (Nat.succ_ne_zero n)]
  have hdrop : l.drop (n + 1) = [] := List.drop_eq_nil_of_le (by omega)
  rw [hdrop, mtotalF_nil_nil]
  omega

theorem smScore_self (l : List Char) : smScore l l = 1 := by
  by_cases h : l = []
  · subst h; simp [smScore]
  · unfold smScore
    have hn : l.length ≠ 0 := fun h0 => h (List.length_eq_zero.mp h0)
    rw [if_neg (by omega), mtotal_self l h]
    have : (l.length : ℚ) ≠ 0 := Nat.cast_ne_zero.mpr hn
    field_simp
    ring

/-- Counterexample to C6 as stated: `similarity("", "") = 0 ≠ 1.0`, so
reflexivity fails on the empty string, and the `SequenceMatcher` ratio is
order-dependent: `similarity("tide", "diet") = 0.25` while
`similarity("diet", "tide") = 0.5`, so symmetry fails too. -/
theorem similarity_counterexample :
    _similarity "" "" ≠ 1 ∧
      _similarity "tide" "diet" ≠ _similarity "diet" "tide" := by
  constructor
  · intro h
    rw [show _similarity "" "" = 0 from by simp [_similarity]] at h
    exact absurd h (by norm_num)
  · have e1 : pyLowerStrip "tide" = ['t', 'i', 'd', 'e'] := by decide
    have e2 : pyLowerStrip "diet" = ['d', 'i', 'e', 't'] := by decide
    have m1 : mtotal ['t', 'i', 'd', 'e'] ['d', 'i', 'e', 't'] = 1 := by decide
    have m2 : mtotal ['d', 'i', 'e', 't'] ['t', 'i', 'd', 'e'] = 2 := by decide
    have h1 : _similarity "tide" "diet" = 1/4 := by
      unfold _similarity
      rw [if_neg (by simp), e1, e2]
      unfold smScore
      rw [if_neg (by simp), m1]
      norm_num
    have h2 : _similarity "diet" "tide" = 1/2 := by
      unfold _similarity
      rw [if_neg (by simp), e1, e2]
      unfold smScore
      rw [if_neg (by simp), m2]
      norm_num
    rw [h1, h2]
    norm_num

/-- C6 (amended): `similarity(a, a) = 1.0` for every non-empty string `a`
(for `a = ""` the empty-input guard yields `0.0` instead), and
`similarity` is `0.0` whenever either argument is empty.  Symmetry does
not hold (see the counterexample), so it is dropped. -/
theorem similarity_properties :
    (∀ a : String, a ≠ "" → _similarity a a = 1) ∧
      (∀ a : String, _similarity "" a = 0 ∧ _similarity a "" = 0) := by
  constructor
  · intro a ha
    unfold _similarity
    rw [if_neg (by simp [ha])]
    exact smScore_self _
  · intro a
    constructor <;> simp [_similarity]

/-- Witness for C6 (amended) at concrete strings: reflexivity at a
non-empty string. -/
theorem similarity_properties_witness : _similarity "alpha" "alpha" = 1 :=
  similarity_properties.1 "alpha" (by decide)

/-- C8: for rows within the data model's domain (non-negative monetary
values), a zero average forces both floored values to zero, the division
is `0.0/0.0`, and `pct_variance` is the NaN marker: it propagates into the
output row (no exception is raised, the row is kept) and is never coerced
to `0` or `∞` — `within_tolerance` simply compares false. -/
theorem variance_zero_avg_nan
    (rows : List MRow) (tolerance : ℚ) (v : VRow)
    (hv : v ∈ calculate_revenue_variance rows tolerance)
    (ha : 0 ≤ v.amount_client) (hb : 0 ≤ v.revenue_internal)
    (h : Int.floor v.amount_client + Int.floor v.revenue_internal = 0) :
    v.pct_variance = PFloat.nan ∧ v.within_tolerance = false := by
  have ha' : 0 ≤ Int.floor v.amount_client := Int.floor_nonneg.mpr ha
  have hb' : 0 ≤ Int.floor v.revenue_internal := Int.floor_nonneg.mpr hb
  have hz : Int.floor v.amount_client = 0 := by omega
  have := varianceRow_zero_sum rows tolerance v hv h
  rw [if_pos hz] at this
  exact this

/-- Witness for C8 at the concrete all-zero row: `0.0/0.0` gives the NaN
marker and the row flows through with `within_tolerance = false`. -/
theorem variance_zero_avg_nan_witness :
    (varianceRow 1 mrowZero).pct_variance = PFloat.nan ∧
      (varianceRow 1 mrowZero).within_tolerance = false := by
  apply variance_zero_avg_nan [mrowZero] 1
  · simp [calculate_revenue_variance]
  · show (0:ℚ) ≤ mrowZero.amount_client
    norm_num [mrowZero]
  · show (0:ℚ) ≤ mrowZero.revenue_internal
    norm_num [mrowZero]
  · show Int.floor (varianceRow 1 mrowZero).amount_client
        + Int.floor (varianceRow 1 mrowZero).revenue_internal = 0
    norm_num [varianceRow, mrowZero]

/-! ## C4: fuzzy-match selection -/

/-- The same-date candidate group for a client row (`groupby("job_date")`
restricted to the row's date). -/
def sameDateCands (il : List InternalRow) (d : String) : List InternalRow :=
  il.filter (fun i => decide (i.job_date = some d))

/-- The best score over a candidate group, seeded with the loop's initial
`best_score = 0.0`. -/
def bestScore (c : ClientRow) (cands : List InternalRow) : ℚ :=
  (cands.map (scorePair c)).foldl max 0

theorem bestCandStep_fst (c : ClientRow) (acc : ℚ × Option InternalRow)
    (i : InternalRow) : (bestCandStep c acc i).1 = max acc.1 (scorePair c i) := by
  unfold bestCandStep
  rcases le_or_lt (scorePair c i) acc.1 with h | h
  · rw [if_neg (not_lt.mpr h), max_eq_left h]
  · rw [if_pos h, max_eq_right (le_of_lt h)]

theorem foldl_bestCandStep_fst (c : ClientRow) (t : List InternalRow) :
    ∀ acc : ℚ × Option InternalRow,
      (t.foldl (bestCandStep c) acc).1 = (t.map (scorePair c)).foldl max acc.1 := by
  induction t with
  | nil => intro acc; rfl
  | cons i t ih =>
    intro acc
    rw [List.foldl_cons, List.map_cons, List.foldl_cons, ih, bestCandStep_fst]

/-- The tracked best score is the maximum candidate score (clamped below
by the initial `0.0`). -/
theorem bestCand_fst (c : ClientRow) (cands : List InternalRow) :
    (bestCand c cands).1 = bestScore c cands :=
  foldl_bestCandStep_fst c cands (0, none)

/-- A best match is retained exactly when some candidate scored strictly
above the initial `0.0`. -/
theorem bestCand_isSome_iff (c : ClientRow) (cands : List InternalRow) :
    0 ≤ (bestCand c cands).1 ∧
      ((bestCand c cands).2.isSome ↔ 0 < (bestCand c cands).1) := by
  unfold bestCand
  refine List.foldlRecOn
    (motive := fun t : ℚ × Option InternalRow => 0 ≤ t.1 ∧ (t.2.isSome ↔ 0 < t.1))
    _ _ _ ?_ ?_
  · exact ⟨le_refl 0, by simp⟩
  · intro acc hacc i _
    unfold bestCandStep
    by_cases h : acc.1 < scorePair c i
    · rw [if_pos h]
      have hpos : 0 < scorePair c i := lt_of_le_of_lt hacc.1 h
      exact ⟨le_of_lt hpos, by simp [hpos]⟩
    · rw [if_neg h]
      exact hacc

/-- Characterization of a single client row's fuzzy emission. -/
theorem fuzzyRowResult_spec (il : List InternalRow) (threshold : ℚ)
    (c : ClientRow) (d : String) (hd : c.job_date = some d) :
    ((fuzzyRowResult il threshold c).isSome ↔
      (0 < bestScore c (sameDateCands il d) ∧
        threshold ≤ bestScore c (sameDateCands il d))) ∧
    (∀ p, fuzzyRowResult il threshold c = some p →
      p.confidence = pyRound2 (bestScore c (sameDateCands il d)) ∧
        p.match_type = "fuzzy") := by
  obtain ⟨hnn, hiff0⟩ := bestCand_isSome_iff c (sameDateCands il d)
  have hfst0 := bestCand_fst c (sameDateCands il d)
  rcases hbc : bestCand c (sameDateCands il d) with ⟨s, si⟩
  rw [hbc] at hnn hiff0 hfst0
  have hnn' : 0 ≤ s := hnn
  have hiff : si.isSome ↔ 0 < s := hiff0
  have hfst : s = bestScore c (sameDateCands il d) := hfst0
  cases si with
  | none =>
    have hbody : fuzzyRowResult il threshold c = none := by
      have e1 : fuzzyRowResult il threshold c =
          match bestCand c (sameDateCands il d) with
          | (s, some i) =>
            if threshold ≤ s then some (mkFuzzyPair c i (pyRound2 s)) else none
          | (_, none) => none := by
        unfold fuzzyRowResult
        rw [hd]
        rfl
      rw [e1, hbc]
    simp only [Option.isSome_none, Bool.false_eq_true, false_iff] at hiff
    rw [hbody]
    constructor
    · simp only [Option.isSome_none, Bool.false_eq_true, false_iff, not_and]
      intro hpos
      exact absurd (hfst ▸ hpos) hiff
    · intro p hp
      exact absurd hp (by simp)
  | some i =>
    simp only [Option.isSome_some, true_iff] at hiff
    have hbody : fuzzyRowResult il threshold c =
        if threshold ≤ s then some (mkFuzzyPair c i (pyRound2 s)) else none := by
      have e1 : fuzzyRowResult il threshold c =
          match bestCand c (sameDateCands il d) with
          | (s, some i) =>
            if threshold ≤ s then some (mkFuzzyPair c i (pyRound2 s)) else none
          | (_, none) => none := by
        unfold fuzzyRowResult
        rw [hd]
        rfl
      rw [e1, hbc]
    rw [hbody]
    by_cases hth : threshold ≤ s
    · rw [if_pos hth]
      constructor
      · simp only [Option.isSome_some, true_iff]
        exact ⟨hfst ▸ hiff, hfst ▸ hth⟩
      · intro p hp
        injection hp with hp
        subst hp
        constructor
        · show pyRound2 s = pyRound2 (bestScore c (sameDateCands il d))
          rw [hfst]
        · rfl
    · rw [if_neg hth]
      constructor
      · simp only [Option.isSome_none, Bool.false_eq_true, false_iff, not_and]
        intro _ h
        exact hth (hfst ▸ h)
      · intro p hp
        exact absurd hp (by simp)

/-- Evaluation form of `_similarity` on non-empty strings with a non-empty
normalized total length. -/
theorem similarity_eval (a b : String) (hab : ¬(a = "" ∨ b = ""))
    (hT : (pyLowerStrip a).length + (pyLowerStrip b).length ≠ 0) :
    _similarity a b =
      2 * (mtotal (pyLowerStrip a) (pyLowerStrip b) : ℚ) /
        (((pyLowerStrip a).length : ℚ) + ((pyLowerStrip b).length : ℚ)) := by
  unfold _similarity smScore
  rw [if_neg hab, if_neg hT]

/-- C4 (amended): fuzzy matching returns the empty set when either input
is empty, otherwise considers for each client row only the internal rows
with the same `job_date` (rows with a null date are skipped) and emits the
client row if and only if the best candidate score is at least `threshold`
AND strictly positive — a best match is only retained when some candidate
scored strictly above the loop's initial `best_score = 0.0`, so with
`threshold ≤ 0` an all-zero candidate group is not emitted even though its
best score reaches the threshold.  An emitted pair carries
`confidence = round(best score, 2)` and `match_type = "fuzzy"`. -/
theorem fuzzy_match_selection :
    (∀ (cl : List ClientRow) (il : List InternalRow) (threshold : ℚ),
      cl = [] ∨ il = [] → fuzzy_match cl il threshold = []) ∧
    (∀ (cl : List ClientRow) (il : List InternalRow) (threshold : ℚ),
      cl ≠ [] → il ≠ [] →
        fuzzy_match cl il threshold = cl.filterMap (fuzzyRowResult il threshold)) ∧
    (∀ (il : List InternalRow) (threshold : ℚ) (c : ClientRow),
      c.job_date = none → fuzzyRowResult il threshold c = none) ∧
    (∀ (il : List InternalRow) (threshold : ℚ) (c : ClientRow) (d : String),
      c.job_date = some d →
      ((fuzzyRowResult il threshold c).isSome ↔
        (0 < bestScore c (sameDateCands il d) ∧
          threshold ≤ bestScore c (sameDateCands il d))) ∧
      (∀ p, fuzzyRowResult il threshold c = some p →
        p.confidence = pyRound2 (bestScore c (sameDateCands il d)) ∧
          p.match_type = "fuzzy")) := by
  refine ⟨?_, ?_, ?_, fuzzyRowResult_spec⟩
  · intro cl il threshold h
    unfold fuzzy_match
    rcases h with rfl | rfl
    · rw [if_pos (by simp)]
    · rw [if_pos (by simp)]
  · intro cl il threshold hc hi
    unfold fuzzy_match
    rw [if_neg (by simp [hc, hi])]
  · intro il threshold c hd
    unfold fuzzyRowResult
    rw [hd]

/-- Witness for C4 (amended): the empty-input clause at concrete tables. -/
theorem fuzzy_match_selection_witness : fuzzy_match [] [] (8/10) = [] :=
  fuzzy_match_selection.1 [] [] (8/10) (Or.inl rfl)

/-- A client row whose only same-date candidate scores exactly `0.0`. -/
def cDisjoint : ClientRow :=
  { order_id := some "A", job_date := some "2025-10-01", site := "ab",
    service_type := "xy", amount := 1 }

/-- The internal row sharing `cDisjoint`'s date with disjoint text fields. -/
def iDisjoint : InternalRow :=
  { job_id := some "J", job_date := some "2025-10-01", site := "cd",
    service_type := "uv", revenue := 1 }

theorem similarity_ab_cd : _similarity "ab" "cd" = 0 := by
  rw [similarity_eval "ab" "cd" (by simp) (by decide),
    show mtotal (pyLowerStrip "ab") (pyLowerStrip "cd") = 0 from by decide]
  norm_num

theorem similarity_xy_uv : _similarity "xy" "uv" = 0 := by
  rw [similarity_eval "xy" "uv" (by simp) (by decide),
    show mtotal (pyLowerStrip "xy") (pyLowerStrip "uv") = 0 from by decide]
  norm_num

theorem scorePair_disjoint : scorePair cDisjoint iDisjoint = 0 := by
  show (_similarity "ab" "cd" + _similarity "xy" "uv") / 2 = 0
  rw [similarity_ab_cd, similarity_xy_uv]
  norm_num

/-- Counterexample to C4 as stated: with `threshold = 0`, the client row
`cDisjoint` has the non-empty same-date candidate group `[iDisjoint]` whose
best score `0` satisfies `best score ≥ threshold`, yet `fuzzy_match` emits
nothing (the loop only retains strictly improving candidates, so
`best_match` stays `None`). -/
theorem fuzzy_selection_counterexample :
    fuzzy_match [cDisjoint] [iDisjoint] 0 = [] ∧
      sameDateCands [iDisjoint] "2025-10-01" = [iDisjoint] ∧
      bestScore cDisjoint (sameDateCands [iDisjoint] "2025-10-01") = 0 := by
  have hcands : sameDateCands [iDisjoint] "2025-10-01" = [iDisjoint] := by
    unfold sameDateCands iDisjoint
    simp
  have hbest : bestScore cDisjoint (sameDateCands [iDisjoint] "2025-10-01") = 0 := by
    rw [hcands]
    unfold bestScore
    rw [List.map_singleton, List.foldl_cons, List.foldl_nil, scorePair_disjoint]
    simp
  refine ⟨?_, hcands, hbest⟩
  have hbc : bestCand cDisjoint [iDisjoint] = (0, none) := by
    unfold bestCand bestCandStep
    rw [List.foldl_cons, List.foldl_nil, scorePair_disjoint]
    norm_num
  have hfr : fuzzyRowResult [iDisjoint] 0 cDisjoint = none := by
    have e1 : fuzzyRowResult [iDisjoint] 0 cDisjoint =
        match bestCand cDisjoint (sameDateCands [iDisjoint] "2025-10-01") with
        | (s, some i) => if (0:ℚ) ≤ s then some (mkFuzzyPair cDisjoint i (pyRound2 s)) else none
        | (_, none) => none := by
      unfold fuzzyRowResult
      rw [show cDisjoint.job_date = some "2025-10-01" from rfl]
      rfl
    rw [e1, hcands, hbc]
  unfold fuzzy_match
  rw [if_neg (by simp)]
  rw [List.filterMap_cons, hfr, List.filterMap_nil]

/-! ## C2: fuzzy confidence versus threshold in `reconcile` -/

/-- Round-half-even never rounds below the floor. -/
theorem roundHalfEven_ge_floor (x : ℚ) : Int.floor x ≤ roundHalfEven x := by
  unfold roundHalfEven
  dsimp only
  split_ifs <;> omega

/-- If `k ≤ 100 · s` for an integer `k`, then `round(s, 2) ≥ k / 100`. -/
theorem pyRound2_ge (k : ℤ) (s : ℚ) (h : (k : ℚ) ≤ 100 * s) :
    (k : ℚ) / 100 ≤ pyRound2 s := by
  unfold pyRound2
  have h1 : k ≤ Int.floor (s * 100) := Int.le_floor.mpr (by linarith)
  have h2 : k ≤ roundHalfEven (s * 100) :=
    le_trans h1 (roundHalfEven_ge_floor _)
  have h3 : (k : ℚ) ≤ (roundHalfEven (s * 100) : ℚ) := by exact_mod_cast h2
  linarith

/-- Every member of a fuzzy match result was emitted with a pre-rounding
best score at least the threshold; its confidence is that score rounded
and its `match_type` is `"fuzzy"`. -/
theorem mem_fuzzy_match_confidence (cl : List ClientRow)
    (il : List InternalRow) (threshold : ℚ) (p : MatchedPair)
    (h : p ∈ fuzzy_match cl il threshold) :
    ∃ s, threshold ≤ s ∧ p.confidence = pyRound2 s ∧ p.match_type = "fuzzy" := by
  unfold fuzzy_match at h
  by_cases he : (cl.isEmpty || il.isEmpty) = true
  · rw [if_pos he] at h
    exact absurd h (by simp)
  · rw [if_neg he] at h
    obtain ⟨c, _, hc⟩ := List.mem_filterMap.mp h
    unfold fuzzyRowResult at hc
    rcases hjd : c.job_date with _ | d
    · rw [hjd] at hc
      exact absurd hc (by simp)
    · rw [hjd] at hc
      have hc2 :
          (match bestCand c (sameDateCands il d) with
            | (s, some i) =>
              if threshold ≤ s then some (mkFuzzyPair c i (pyRound2 s)) else none
            | (_, none) => none) = some p := hc
      rcases hbc : bestCand c (sameDateCands il d) with ⟨s, si⟩
      rw [hbc] at hc2
      cases si with
      | none =>
        exact absurd (show (none : Option MatchedPair) = some p from hc2) (by simp)
      | some i =>
        have hc3 : (if threshold ≤ s
            then some (mkFuzzyPair c i (pyRound2 s)) else none) = some p := hc2
        by_cases hth : threshold ≤ s
        · rw [if_pos hth] at hc3
          injection hc3 with hc3
          subst hc3
          exact ⟨s, hth, rfl, rfl⟩
        · rw [if_neg hth] at hc3
          exact absurd hc3 (by simp)

/-- Every deterministic match is tagged `"deterministic"`. -/
theorem mem_deterministic_match_type (cl : List ClientRow)
    (il : List InternalRow) (p : MatchedPair)
    (h : p ∈ deterministic_match cl il) : p.match_type = "deterministic" := by
  unfold deterministic_match at h
  obtain ⟨c, _, hp⟩ := List.mem_flatMap.mp h
  obtain ⟨i, _, rfl⟩ := List.mem_map.mp hp
  rfl

/-- C2 (amended): `reconcile` applies no separate confidence re-filter
between the fuzzy phase and the concatenation; what holds instead is that
every fuzzy row was emitted with a pre-rounding best score `≥ threshold`,
so whenever `100 · threshold` is an integer (as for the default `0.8`),
every row of `allMatches` with `match_type = "fuzzy"` still has
`confidence ≥ threshold`.  (For thresholds that are not a multiple of
`0.01` the rounding can drop the confidence below the threshold — see the
counterexample.) -/
theorem reconcile_fuzzy_confidence (cl : List ClientRow)
    (il : List InternalRow) (threshold : ℚ) (k : ℤ)
    (hk : 100 * threshold = (k : ℚ))
    (allMatches : List MatchedPair) (uc : List ClientRow)
    (ui : List InternalRow)
    (hr : reconcile cl il threshold = .ok (allMatches, uc, ui))
    (p : MatchedPair) (hp : p ∈ allMatches) (hf : p.match_type = "fuzzy") :
    threshold ≤ p.confidence := by
  unfold reconcile at hr
  by_cases he : (cl.isEmpty || il.isEmpty) = true
  · rw [if_pos he] at hr
    exact absurd hr (by simp)
  · rw [if_neg he] at hr
    dsimp only at hr
    rw [Except.ok.injEq, Prod.mk.injEq, Prod.mk.injEq] at hr
    obtain ⟨h1, _, _⟩ := hr
    subst h1
    rcases List.mem_append.mp hp with hd | hfz
    · rw [mem_deterministic_match_type _ _ _ hd] at hf
      exact absurd hf (by decide)
    · obtain ⟨s, hs, hconf, _⟩ := mem_fuzzy_match_confidence _ _ _ _ hfz
      rw [hconf]
      have hth : threshold = (k : ℚ) / 100 := by linarith
      rw [hth]
      exact pyRound2_ge k s (by linarith)

/-- A client row fuzzy-matching `iShort` with score `5/6 ≈ 0.8333`. -/
def cShort : ClientRow :=
  { order_id := some "A", job_date := some "2025-10-01", site := "x",
    service_type := "ab", amount := 100 }

/-- The internal candidate for `cShort`: same date and site, service type
at similarity `2/3`. -/
def iShort : InternalRow :=
  { job_id := some "J", job_date := some "2025-10-01", site := "x",
    service_type := "a", revenue := 100 }

theorem similarity_x_x : _similarity "x" "x" = 1 := by
  rw [similarity_eval "x" "x" (by simp) (by decide),
    show mtotal (pyLowerStrip "x") (pyLowerStrip "x") = 1 from by decide]
  norm_num [show pyLowerStrip "x" = ['x'] from by decide]

theorem similarity_ab_a : _similarity "ab" "a" = 2/3 := by
  rw [similarity_eval "ab" "a" (by simp) (by decide),
    show mtotal (pyLowerStrip "ab") (pyLowerStrip "a") = 1 from by decide]
  norm_num [show pyLowerStrip "ab" = ['a', 'b'] from by decide,
    show pyLowerStrip "a" = ['a'] from by decide]

theorem scorePair_short : scorePair cShort iShort = 5/6 := by
  show (_similarity "x" "x" + _similarity "ab" "a") / 2 = 5/6
  rw [similarity_x_x, similarity_ab_a]
  norm_num

theorem pyRound2_five_sixths : pyRound2 (5/6) = 83/100 := by
  unfold pyRound2 roundHalfEven
  have hfl : Int.floor ((5:ℚ)/6 * 100) = 83 := by
    rw [Int.floor_eq_iff]
    constructor <;> norm_num
  rw [hfl]
  dsimp only
  rw [if_pos (by norm_num)]
  norm_num

/-- Full evaluation of `reconcile` on the one-row tables `[cShort]`,
`[iShort]` for any threshold at most the pair's score `5/6`: the pair
misses the deterministic join (different `service_type`), fuzzy-matches
with best score `5/6`, and is emitted with the rounded confidence
`0.83`. -/
theorem reconcile_short_eval (threshold : ℚ) (hth : threshold ≤ 5/6) :
    reconcile [cShort] [iShort] threshold =
      .ok ([mkFuzzyPair cShort iShort (83/100)], [], []) := by
  have hbc : bestCand cShort [iShort] = (5/6, some iShort) := by
    unfold bestCand bestCandStep
    rw [List.foldl_cons, List.foldl_nil, scorePair_short]
    rw [if_pos (by norm_num)]
  have hfr : fuzzyRowResult [iShort] threshold cShort =
      some (mkFuzzyPair cShort iShort (83/100)) := by
    have e1 : fuzzyRowResult [iShort] threshold cShort =
        match bestCand cShort [iShort] with
        | (s, some i) =>
          if threshold ≤ s then some (mkFuzzyPair cShort i (pyRound2 s)) else none
        | (_, none) => none := by
      unfold fuzzyRowResult
      rfl
    rw [e1, hbc]
    show (if threshold ≤ 5/6 then _ else _) = _
    rw [if_pos hth, pyRound2_five_sixths]
  have hfz : fuzzy_match [cShort] [iShort] threshold =
      [mkFuzzyPair cShort iShort (83/100)] := by
    unfold fuzzy_match
    rw [if_neg (by decide)]
    rw [List.filterMap_cons, hfr, List.filterMap_nil]
  unfold reconcile
  rw [if_neg (by decide)]
  dsimp only
  have hnorm : [cShort].map (fun c => { c with site := _normalize c.site }) = [cShort] := by rfl
  rw [show deterministic_match
      ([cShort].map (fun c => { c with site := _normalize c.site }))
      ([iShort].map (fun i => { i with site := _normalize i.site })) = [] from rfl]
  rw [show get_unmatched_client
      ([cShort].map (fun c => { c with site := _normalize c.site })) [] = [cShort] from rfl]
  rw [show get_unmatched_internal
      ([iShort].map (fun i => { i with site := _normalize i.site })) [] = [iShort] from rfl]
  rw [hfz]
  rfl

/-- Counterexample to C2 as stated: with `threshold = 5/6` (not a multiple
of `0.01`), `reconcile` emits a fuzzy row whose best score is exactly the
threshold but whose stored confidence `round(5/6, 2) = 0.83` is *below*
the threshold — no defensive `confidence ≥ threshold` re-filter exists
between the fuzzy phase and the concatenation, or this row could not
appear in `allMatches`. -/
theorem reconcile_no_refilter_counterexample :
    reconcile [cShort] [iShort] (5/6) =
        .ok ([mkFuzzyPair cShort iShort (83/100)], [], []) ∧
      (mkFuzzyPair cShort iShort (83/100)).match_type = "fuzzy" ∧
      (mkFuzzyPair cShort iShort (83/100)).confidence < 5/6 := by
  refine ⟨reconcile_short_eval (5/6) le_rfl, rfl, ?_⟩
  show (83:ℚ)/100 < 5/6
  norm_num

/-- Witness for C2 (amended) at the concrete run with the default-style
threshold `0.8 = 80/100`: the emitted fuzzy row's confidence `0.83` is at
least the threshold. -/
theorem reconcile_fuzzy_confidence_witness :
    (4:ℚ)/5 ≤ (mkFuzzyPair cShort iShort (83/100)).confidence := by
  apply reconcile_fuzzy_confidence [cShort] [iShort] (4/5) 80 (by norm_num)
    [mkFuzzyPair cShort iShort (83/100)] [] []
    (reconcile_short_eval (4/5) (by norm_num))
    (mkFuzzyPair cShort iShort (83/100)) (by simp) rfl

/-! ## C1: the partition property of `reconcile` -/

theorem countP_congr_list {α : Type} (l : List α) (p q : α → Bool)
    (h : ∀ a ∈ l, p a = q a) : l.countP p = l.countP q := by
  induction l with
  | nil => rfl
  | cons x t ih =>
    rw [List.countP_cons, List.countP_cons, h x (List.mem_cons_self x t),
      ih (fun a ha => h a (List.mem_cons_of_mem x ha))]

/-- Among rows whose identifiers are pairwise distinct, the identifier of a
member row is counted exactly once. -/
theorem countP_id_eq_one {α : Type} (f : α → Option String) (l : List α)
    (hn : (l.map f).Nodup) (r : α) (hr : r ∈ l) (v : String)
    (hv : f r = some v) :
    l.countP (fun a => decide (f a = some v)) = 1 := by
  induction l with
  | nil => cases hr
  | cons x t ih =>
    rw [List.map_cons, List.nodup_cons] at hn
    rw [List.countP_cons]
    rcases List.mem_cons.mp hr with rfl | hrt
    · have ht0 : t.countP (fun a => decide (f a = some v)) = 0 := by
        rw [List.countP_eq_zero]
        intro a ha hq
        have haq : f a = some v := of_decide_eq_true hq
        exact hn.1 (hv ▸ haq ▸ List.mem_map_of_mem f ha)
      simp [hv, ht0]
    · have hx : f x ≠ some v := by
        intro h0
        exact hn.1 (h0 ▸ (hv ▸ List.mem_map_of_mem f hrt))
      rw [ih hn.2 hrt]
      simp [hx]

/-- One side of the partition argument: among rows with pairwise-distinct,
non-null identifiers, a row's identifier is counted either in the matched
pairs (and then not at all in the final unmatched set) or exactly once in
the final unmatched set. -/
theorem partition_side {α : Type} (rows : List α) (idf : α → Option String)
    (pairs : List MatchedPair) (pidf : MatchedPair → Option String)
    (hnodup : (rows.map idf).Nodup)
    (r : α) (hrm : r ∈ rows) (v : String) (hv : idf r = some v) :
    (1 ≤ pairs.countP (fun p => decide (pidf p = some v)) ∧
      (rows.filter (fun u =>
        match idf u with
        | some w => decide (w ∉ pairs.filterMap pidf)
        | none => true)).countP (fun u => decide (idf u = some v)) = 0) ∨
    (pairs.countP (fun p => decide (pidf p = some v)) = 0 ∧
      (rows.filter (fun u =>
        match idf u with
        | some w => decide (w ∉ pairs.filterMap pidf)
        | none => true)).countP (fun u => decide (idf u = some v)) = 1) := by
  by_cases hmem : v ∈ pairs.filterMap pidf
  · left
    constructor
    · obtain ⟨p, hp, hpe⟩ := List.mem_filterMap.mp hmem
      have hpos : 0 < pairs.countP (fun p => decide (pidf p = some v)) :=
        List.countP_pos_iff.mpr ⟨p, hp, by simp [hpe]⟩
      omega
    · rw [List.countP_eq_zero]
      intro u hu hq
      have hq' : idf u = some v := of_decide_eq_true hq
      have hfu := List.of_mem_filter hu
      simp only [hq'] at hfu
      exact absurd hmem (by simpa using hfu)
  · right
    constructor
    · rw [List.countP_eq_zero]
      intro p hp hq
      exact hmem (List.mem_filterMap.mpr ⟨p, hp, of_decide_eq_true hq⟩)
    · rw [List.countP_filter]
      have hcong : rows.countP (fun u => decide (idf u = some v) &&
          (match idf u with
          | some w => decide (w ∉ pairs.filterMap pidf)
          | none => true)) = rows.countP (fun u => decide (idf u = some v)) := by
        apply countP_congr_list
        intro u _
        by_cases hq : idf u = some v
        · simp [hq, hmem]
        · simp [hq]
      rw [hcong]
      exact countP_id_eq_one idf rows hnodup r hrm v hv

/-- C1: partition property of `reconcile`.  For non-empty inputs whose
identifier columns are non-null and duplicate-free (the data model's
`record_id` is an identifier), every client row's id is either carried by
at least one row of `allMatches` and absent from the final unmatched
client set, or absent from `allMatches` and present exactly once in the
final unmatched client set — never both, and never dropped; symmetrically
for internal rows. -/
theorem reconcile_partition (cl : List ClientRow) (il : List InternalRow)
    (threshold : ℚ) (allM : List MatchedPair) (uc : List ClientRow)
    (ui : List InternalRow)
    (hr : reconcile cl il threshold = .ok (allM, uc, ui))
    (hcn : ∀ c ∈ cl, c.order_id ≠ none)
    (hin : ∀ i ∈ il, i.job_id ≠ none)
    (hcd : (cl.map (fun c => c.order_id)).Nodup)
    (hid : (il.map (fun i => i.job_id)).Nodup) :
    (∀ c ∈ cl,
      (1 ≤ allM.countP (fun p => decide (p.order_id = c.order_id)) ∧
        uc.countP (fun u => decide (u.order_id = c.order_id)) = 0) ∨
      (allM.countP (fun p => decide (p.order_id = c.order_id)) = 0 ∧
        uc.countP (fun u => decide (u.order_id = c.order_id)) = 1)) ∧
    (∀ i ∈ il,
      (1 ≤ allM.countP (fun p => decide (p.job_id = i.job_id)) ∧
        ui.countP (fun u => decide (u.job_id = i.job_id)) = 0) ∨
      (allM.countP (fun p => decide (p.job_id = i.job_id)) = 0 ∧
        ui.countP (fun u => decide (u.job_id = i.job_id)) = 1)) := by
  unfold reconcile at hr
  by_cases he : (cl.isEmpty || il.isEmpty) = true
  · rw [if_pos he] at hr
    exact absurd hr (by simp)
  · rw [if_neg he] at hr
    dsimp only at hr
    rw [Except.ok.injEq, Prod.mk.injEq, Prod.mk.injEq] at hr
    obtain ⟨h1, h2, h3⟩ := hr
    subst h1
    subst h2
    subst h3
    have hcd' : ((cl.map (fun c => { c with site := _normalize c.site })).map
        (fun c => c.order_id)).Nodup := by
      rw [List.map_map]
      exact hcd
    have hid' : ((il.map (fun i => { i with site := _normalize i.site })).map
        (fun i => i.job_id)).Nodup := by
      rw [List.map_map]
      exact hid
    constructor
    · intro c hc
      rcases hcv : c.order_id with _ | v
      · exact absurd hcv (hcn c hc)
      · exact partition_side _ (fun c : ClientRow => c.order_id) _
          (fun p : MatchedPair => p.order_id)
          hcd' _ (List.mem_map_of_mem _ hc) v hcv
    · intro i hi
      rcases hiv : i.job_id with _ | v
      · exact absurd hiv (hin i hi)
      · exact partition_side _ (fun i : InternalRow => i.job_id) _
          (fun p : MatchedPair => p.job_id)
          hid' _ (List.mem_map_of_mem _ hi) v hiv

/-- Witness for C1 at the concrete one-row run: the client row's id is
carried by the emitted fuzzy pair and the final unmatched client set is
empty. -/
theorem reconcile_partition_witness :
    (1 ≤ [mkFuzzyPair cShort iShort (83/100)].countP
        (fun p => decide (p.order_id = cShort.order_id)) ∧
      ([] : List ClientRow).countP
        (fun u => decide (u.order_id = cShort.order_id)) = 0) ∨
    ([mkFuzzyPair cShort iShort (83/100)].countP
        (fun p => decide (p.order_id = cShort.order_id)) = 0 ∧
      ([] : List ClientRow).countP
        (fun u => decide (u.order_id = cShort.order_id)) = 1) := by
  refine (reconcile_partition [cShort] [iShort] (4/5) _ _ _
    (reconcile_short_eval (4/5) (by norm_num)) ?_ ?_ ?_ ?_).1 cShort
    (List.mem_singleton.mpr rfl)
  · intro c hc
    rw [List.mem_singleton] at hc
    subst hc
    exact fun h => Option.noConfusion h
  · intro i hi
    rw [List.mem_singleton] at hi
    subst hi
    exact fun h => Option.noConfusion h
  · simp
  · simp

/-! ## C3: multiplicity of records across MatchedPairs -/

/-- Generic at-most-one: when `f` is duplicate-free over `l`, at most one
element of `l` maps to any given value. -/
theorem countP_le_one_of_nodup_map {α β : Type} [DecidableEq β]
    (f : α → β) (b : β) (l : List α) (hn : (l.map f).Nodup) :
    l.countP (fun a => decide (f a = b)) ≤ 1 := by
  induction l with
  | nil => simp
  | cons x t ih =>
    rw [List.map_cons, List.nodup_cons] at hn
    rw [List.countP_cons]
    by_cases hx : f x = b
    · have ht0 : t.countP (fun a => decide (f a = b)) = 0 := by
        rw [List.countP_eq_zero]
        intro a ha hq
        have hb : b ∈ t.map f := by
          rw [← of_decide_eq_true hq]
          exact List.mem_map_of_mem f ha
        exact hn.1 (by rw [hx]; exact hb)
      simp [hx, ht0]
    · have := ih hn.2
      simp [decide_eq_false hx]
      omega

/-- Decomposition of a deterministic match into its two source rows. -/
theorem mem_det_decomp (cl : List ClientRow) (il : List InternalRow)
    (p : MatchedPair) (h : p ∈ deterministic_match cl il) :
    ∃ c ∈ cl, ∃ i ∈ il, ikey i = ckey c ∧ p = mkDetPair c i := by
  unfold deterministic_match at h
  obtain ⟨c, hc, hp⟩ := List.mem_flatMap.mp h
  obtain ⟨i, hi, rfl⟩ := List.mem_map.mp hp
  obtain ⟨hil, hpi⟩ := List.mem_filter.mp hi
  exact ⟨c, hc, i, hil, of_decide_eq_true hpi, rfl⟩

theorem det_countP_zero (cl : List ClientRow) (il : List InternalRow)
    (v : String) (h : ∀ c ∈ cl, c.order_id ≠ some v) :
    (deterministic_match cl il).countP
      (fun p => decide (p.order_id = some v)) = 0 := by
  rw [List.countP_eq_zero]
  intro p hp hq
  obtain ⟨c, hc, i, _, _, rfl⟩ := mem_det_decomp cl il p hp
  exact h c hc (of_decide_eq_true hq)

theorem det_block_countP (c : ClientRow) (il : List InternalRow) (v : String) :
    ((il.filter (fun i => decide (ikey i = ckey c))).map (mkDetPair c)).countP
      (fun p => decide (p.order_id = some v)) =
    if c.order_id = some v
      then (il.filter (fun i => decide (ikey i = ckey c))).length else 0 := by
  rw [List.countP_map]
  by_cases h : c.order_id = some v
  · rw [if_pos h]
    have he : ((fun p : MatchedPair => decide (p.order_id = some v)) ∘ mkDetPair c)
        = fun _ => true := by
      funext i
      simp [mkDetPair, h]
    rw [he, List.countP_true]
  · rw [if_neg h]
    have he : ((fun p : MatchedPair => decide (p.order_id = some v)) ∘ mkDetPair c)
        = fun _ => false := by
      funext i
      simp [mkDetPair, h]
    rw [he, List.countP_false]
    rfl

/-- With duplicate-free client ids and internal key-tuples, the
deterministic join carries any given client id at most once. -/
theorem det_countP_le_one (cl : List ClientRow) (il : List InternalRow)
    (v : String) (hcn : (cl.map (fun c => c.order_id)).Nodup)
    (hik : (il.map ikey).Nodup) :
    (deterministic_match cl il).countP
      (fun p => decide (p.order_id = some v)) ≤ 1 := by
  induction cl with
  | nil => simp [deterministic_match]
  | cons c t ih =>
    rw [List.map_cons, List.nodup_cons] at hcn
    have hsplit : deterministic_match (c :: t) il =
        ((il.filter (fun i => decide (ikey i = ckey c))).map (mkDetPair c)) ++
          deterministic_match t il := by
      unfold deterministic_match
      rw [List.flatMap_cons]
    rw [hsplit, List.countP_append, det_block_countP]
    by_cases h : c.order_id = some v
    · rw [if_pos h]
      have ht0 : (deterministic_match t il).countP
          (fun p => decide (p.order_id = some v)) = 0 := by
        apply det_countP_zero
        intro c' hc' he
        exact hcn.1 (by rw [h, ← he]; exact List.mem_map_of_mem _ hc')
      have hlen : (il.filter (fun i => decide (ikey i = ckey c))).length ≤ 1 := by
        rw [← List.countP_eq_length_filter]
        exact countP_le_one_of_nodup_map ikey (ckey c) il hik
      omega
    · rw [if_neg h]
      have := ih hcn.2
      omega

/-- A fuzzy emission keeps the client row's `order_id`. -/
theorem fuzzyRowResult_order_id (il : List InternalRow) (threshold : ℚ)
    (r : ClientRow) (p : MatchedPair)
    (h : fuzzyRowResult il threshold r = some p) :
    p.order_id = r.order_id := by
  unfold fuzzyRowResult at h
  rcases hjd : r.job_date with _ | d
  · rw [hjd] at h
    exact absurd h (by simp)
  · rw [hjd] at h
    have h2 : (match bestCand r (sameDateCands il d) with
        | (s, some i) =>
          if threshold ≤ s then some (mkFuzzyPair r i (pyRound2 s)) else none
        | (_, none) => none) = some p := h
    rcases hbc : bestCand r (sameDateCands il d) with ⟨s, si⟩
    rw [hbc] at h2
    cases si with
    | none => exact absurd (show (none : Option MatchedPair) = some p from h2) (by simp)
    | some i =>
      have h3 : (if threshold ≤ s
          then some (mkFuzzyPair r i (pyRound2 s)) else none) = some p := h2
      by_cases hth : threshold ≤ s
      · rw [if_pos hth] at h3
        injection h3 with h3
        subst h3
        rfl
      · rw [if_neg hth] at h3
        exact absurd h3 (by simp)

theorem filterMap_fuzzy_countP_zero (il : List InternalRow) (threshold : ℚ)
    (v : String) (um : List ClientRow)
    (h : ∀ r ∈ um, r.order_id ≠ some v) :
    (um.filterMap (fuzzyRowResult il threshold)).countP
      (fun p => decide (p.order_id = some v)) = 0 := by
  rw [List.countP_eq_zero]
  intro p hp hq
  obtain ⟨r, hr, hfr⟩ := List.mem_filterMap.mp hp
  refine h r hr ?_
  rw [← fuzzyRowResult_order_id il threshold r p hfr]
  exact of_decide_eq_true hq

/-- With duplicate-free client ids, the fuzzy phase carries any given
client id at most once (each client row emits at most one pair). -/
theorem filterMap_fuzzy_countP_le_one (il : List InternalRow)
    (threshold : ℚ) (v : String) (um : List ClientRow)
    (hn : (um.map (fun c => c.order_id)).Nodup) :
    (um.filterMap (fuzzyRowResult il threshold)).countP
      (fun p => decide (p.order_id = some v)) ≤ 1 := by
  induction um with
  | nil => simp
  | cons r t ih =>
    rw [List.map_cons, List.nodup_cons] at hn
    rw [List.filterMap_cons]
    rcases hfr : fuzzyRowResult il threshold r with _ | p
    · exact ih hn.2
    · show ((p :: t.filterMap (fuzzyRowResult il threshold)).countP
        (fun p => decide (p.order_id = some v))) ≤ 1
      rw [List.countP_cons]
      by_cases hpv : p.order_id = some v
      · have hrv : r.order_id = some v := by
          rw [← fuzzyRowResult_order_id il threshold r p hfr]
          exact hpv
        have ht0 : (t.filterMap (fuzzyRowResult il threshold)).countP
            (fun p => decide (p.order_id = some v)) = 0 := by
          apply filterMap_fuzzy_countP_zero
          intro r' hr' he
          exact hn.1 (by rw [hrv, ← he]; exact List.mem_map_of_mem _ hr')
        simp [hpv, ht0]
      · have := ih hn.2
        simp [decide_eq_false hpv]
        omega

/-- C3 (amended): client-side at-most-one matching.  When client
`order_id`s are pairwise distinct and the internal rows' normalized
join-key tuples are pairwise distinct, any given client id is carried by
at most one MatchedPair of the combined match set: its deterministic
partner is unique, a deterministically matched row is excluded from the
fuzzy input, and the fuzzy loop emits at most one pair per client row.
(Internal records do NOT satisfy at-most-one: the deterministic join is
combinatorial when key-tuples repeat, and the greedy fuzzy pass may hand
the same internal row to several client rows — see the counterexample.) -/
theorem reconcile_at_most_one_client (cl : List ClientRow)
    (il : List InternalRow) (threshold : ℚ) (allM : List MatchedPair)
    (uc : List ClientRow) (ui : List InternalRow)
    (hr : reconcile cl il threshold = .ok (allM, uc, ui))
    (hcd : (cl.map (fun c => c.order_id)).Nodup)
    (hik : ((il.map (fun i => { i with site := _normalize i.site })).map ikey).Nodup)
    (v : String) :
    allM.countP (fun p => decide (p.order_id = some v)) ≤ 1 := by
  unfold reconcile at hr
  by_cases he : (cl.isEmpty || il.isEmpty) = true
  · rw [if_pos he] at hr
    exact absurd hr (by simp)
  · rw [if_neg he] at hr
    dsimp only at hr
    rw [Except.ok.injEq, Prod.mk.injEq, Prod.mk.injEq] at hr
    obtain ⟨h1, _, _⟩ := hr
    subst h1
    set cl2 := cl.map (fun c => { c with site := _normalize c.site })
      with hcl2
    set il2 := il.map (fun i => { i with site := _normalize i.site })
      with hil2
    set det := deterministic_match cl2 il2 with hdet
    set umc := get_unmatched_client cl2 det with humc
    set umi := get_unmatched_internal il2 det with humi
    rw [List.countP_append]
    have hcd' : (cl2.map (fun c => c.order_id)).Nodup := by
      rw [hcl2, List.map_map]
      exact hcd
    have hdet_le : det.countP (fun p => decide (p.order_id = some v)) ≤ 1 := by
      rw [hdet]
      exact det_countP_le_one cl2 il2 v hcd' hik
    have hnum : (umc.map (fun c => c.order_id)).Nodup := by
      rw [humc]
      exact List.Nodup.sublist (List.Sublist.map _ (List.filter_sublist _)) hcd'
    by_cases hdet0 : det.countP (fun p => decide (p.order_id = some v)) = 0
    · rw [hdet0]
      unfold fuzzy_match
      by_cases hg : (umc.isEmpty || umi.isEmpty) = true
      · rw [if_pos hg]
        simp
      · rw [if_neg hg]
        simpa using filterMap_fuzzy_countP_le_one umi threshold v umc hnum
    · have hpos : 0 < det.countP (fun p => decide (p.order_id = some v)) :=
        Nat.pos_of_ne_zero hdet0
      obtain ⟨p, hp, hq⟩ := List.countP_pos_iff.mp hpos
      rw [hdet] at hp
      obtain ⟨c₁, hc₁, i₁, hi₁, hkey, rfl⟩ := mem_det_decomp _ _ _ hp
      have hc1v : c₁.order_id = some v := of_decide_eq_true hq
      have hkeymem : ckey c₁ ∈ det.map pkey := by
        rw [hdet]
        exact List.mem_map.mpr ⟨mkDetPair c₁ i₁, hp, rfl⟩
      have humv : ∀ r ∈ umc, r.order_id ≠ some v := by
        intro r hrm hrv
        rw [humc] at hrm
        unfold get_unmatched_client at hrm
        obtain ⟨hrcl, hpred⟩ := List.mem_filter.mp hrm
        have hreq : r = c₁ :=
          List.inj_on_of_nodup_map hcd' hrcl hc₁ (by rw [hrv, hc1v])
        subst hreq
        exact absurd hkeymem (of_decide_eq_true hpred)
      unfold fuzzy_match
      by_cases hg : (umc.isEmpty || umi.isEmpty) = true
      · rw [if_pos hg]
        simpa using hdet_le
      · rw [if_neg hg]
        rw [filterMap_fuzzy_countP_zero umi threshold v umc humv]
        simpa using hdet_le

/-- A client row sharing its full key-tuple with two internal rows. -/
def cDup : ClientRow :=
  { order_id := some "A", job_date := some "2025-10-01", site := "plant",
    service_type := "s", amount := 1 }

/-- First internal row with `cDup`'s key-tuple. -/
def iDup1 : InternalRow :=
  { job_id := some "J1", job_date := some "2025-10-01", site := "plant",
    service_type := "s", revenue := 1 }

/-- Second internal row with `cDup`'s key-tuple. -/
def iDup2 : InternalRow :=
  { job_id := some "J2", job_date := some "2025-10-01", site := "plant",
    service_type := "s", revenue := 2 }

/-- First fuzzy claimant of `iFuzzy` (site similarity `2/3`). -/
def cFuzzy1 : ClientRow :=
  { order_id := some "A", job_date := some "2025-10-01", site := "ab",
    service_type := "s", amount := 1 }

/-- Second fuzzy claimant of `iFuzzy` (site similarity `6/7`). -/
def cFuzzy2 : ClientRow :=
  { order_id := some "B", job_date := some "2025-10-01", site := "abc",
    service_type := "s", amount := 1 }

/-- The single internal row both `cFuzzy1` and `cFuzzy2` claim. -/
def iFuzzy : InternalRow :=
  { job_id := some "J", job_date := some "2025-10-01", site := "abcd",
    service_type := "s", revenue := 1 }

theorem similarity_s_s : _similarity "s" "s" = 1 := by
  rw [similarity_eval "s" "s" (by simp) (by decide),
    show mtotal (pyLowerStrip "s") (pyLowerStrip "s") = 1 from by decide]
  norm_num [show pyLowerStrip "s" = ['s'] from by decide]

theorem similarity_ab_abcd : _similarity "ab" "abcd" = 2/3 := by
  rw [similarity_eval "ab" "abcd" (by simp) (by decide),
    show mtotal (pyLowerStrip "ab") (pyLowerStrip "abcd") = 2 from by decide]
  norm_num [show pyLowerStrip "ab" = ['a', 'b'] from by decide,
    show pyLowerStrip "abcd" = ['a', 'b', 'c', 'd'] from by decide]

theorem similarity_abc_abcd : _similarity "abc" "abcd" = 6/7 := by
  rw [similarity_eval "abc" "abcd" (by simp) (by decide),
    show mtotal (pyLowerStrip "abc") (pyLowerStrip "abcd") = 3 from by decide]
  norm_num [show pyLowerStrip "abc" = ['a', 'b', 'c'] from by decide,
    show pyLowerStrip "abcd" = ['a', 'b', 'c', 'd'] from by decide]

theorem pyRound2_thirteen_fourteenths : pyRound2 (13/14) = 93/100 := by
  unfold pyRound2 roundHalfEven
  have hfl : Int.floor ((13:ℚ)/14 * 100) = 92 := by
    rw [Int.floor_eq_iff]
    constructor <;> norm_num
  rw [hfl]
  dsimp only
  rw [if_neg (by norm_num), if_pos (by norm_num)]
  norm_num

theorem scorePair_fuzzy1 : scorePair cFuzzy1 iFuzzy = 5/6 := by
  show (_similarity "ab" "abcd" + _similarity "s" "s") / 2 = 5/6
  rw [similarity_ab_abcd, similarity_s_s]
  norm_num

theorem scorePair_fuzzy2 : scorePair cFuzzy2 iFuzzy = 13/14 := by
  show (_similarity "abc" "abcd" + _similarity "s" "s") / 2 = 13/14
  rw [similarity_abc_abcd, similarity_s_s]
  norm_num

/-- Full evaluation of `reconcile` on the fuzzy-double-claim tables: both
client rows (distinct ids, distinct key-tuples) best-match the single
internal row `iFuzzy` above the 0.8 threshold, so it is handed to both. -/
theorem reconcile_fuzzy_double_eval :
    reconcile [cFuzzy1, cFuzzy2] [iFuzzy] (8/10) =
      .ok ([mkFuzzyPair cFuzzy1 iFuzzy (83/100),
            mkFuzzyPair cFuzzy2 iFuzzy (93/100)], [], []) := by
  have hbc1 : bestCand cFuzzy1 [iFuzzy] = (5/6, some iFuzzy) := by
    unfold bestCand bestCandStep
    rw [List.foldl_cons, List.foldl_nil, scorePair_fuzzy1]
    rw [if_pos (by norm_num)]
  have hbc2 : bestCand cFuzzy2 [iFuzzy] = (13/14, some iFuzzy) := by
    unfold bestCand bestCandStep
    rw [List.foldl_cons, List.foldl_nil, scorePair_fuzzy2]
    rw [if_pos (by norm_num)]
  have hfr1 : fuzzyRowResult [iFuzzy] (8/10) cFuzzy1 =
      some (mkFuzzyPair cFuzzy1 iFuzzy (83/100)) := by
    have e1 : fuzzyRowResult [iFuzzy] (8/10) cFuzzy1 =
        match bestCand cFuzzy1 [iFuzzy] with
        | (s, some i) =>
          if (8:ℚ)/10 ≤ s then some (mkFuzzyPair cFuzzy1 i (pyRound2 s)) else none
        | (_, none) => none := by
      unfold fuzzyRowResult
      rfl
    rw [e1, hbc1]
    show (if (8:ℚ)/10 ≤ 5/6 then _ else _) = _
    rw [if_pos (by norm_num), pyRound2_five_sixths]
  have hfr2 : fuzzyRowResult [iFuzzy] (8/10) cFuzzy2 =
      some (mkFuzzyPair cFuzzy2 iFuzzy (93/100)) := by
    have e1 : fuzzyRowResult [iFuzzy] (8/10) cFuzzy2 =
        match bestCand cFuzzy2 [iFuzzy] with
        | (s, some i) =>
          if (8:ℚ)/10 ≤ s then some (mkFuzzyPair cFuzzy2 i (pyRound2 s)) else none
        | (_, none) => none := by
      unfold fuzzyRowResult
      rfl
    rw [e1, hbc2]
    show (if (8:ℚ)/10 ≤ 13/14 then _ else _) = _
    rw [if_pos (by norm_num), pyRound2_thirteen_fourteenths]
  have hfz : fuzzy_match [cFuzzy1, cFuzzy2] [iFuzzy] (8/10) =
      [mkFuzzyPair cFuzzy1 iFuzzy (83/100),
       mkFuzzyPair cFuzzy2 iFuzzy (93/100)] := by
    unfold fuzzy_match
    rw [if_neg (by decide)]
    rw [List.filterMap_cons, hfr1, List.filterMap_cons, hfr2,
      List.filterMap_nil]
  unfold reconcile
  rw [if_neg (by decide)]
  dsimp only
  rw [show deterministic_match
      ([cFuzzy1, cFuzzy2].map (fun c => { c with site := _normalize c.site }))
      ([iFuzzy].map (fun i => { i with site := _normalize i.site })) = [] from rfl]
  rw [show get_unmatched_client
      ([cFuzzy1, cFuzzy2].map (fun c => { c with site := _normalize c.site })) []
      = [cFuzzy1, cFuzzy2] from rfl]
  rw [show get_unmatched_internal
      ([iFuzzy].map (fun i => { i with site := _normalize i.site })) []
      = [iFuzzy] from rfl]
  rw [hfz]
  rfl

/-- Counterexample to C3 as stated.  First run: one client row whose
key-tuple is shared by two internal rows appears in TWO deterministic
MatchedPairs (the join is combinatorial).  Second run: with all ids and
all key-tuples distinct on each side, one internal row is claimed by TWO
fuzzy MatchedPairs (greedy best-of-group per client row with no conflict
resolution), so matching is not at-most-one on either side. -/
theorem matching_not_at_most_one_counterexample :
    (∃ allM uc ui, reconcile [cDup] [iDup1, iDup2] (8/10) = .ok (allM, uc, ui) ∧
      allM.countP (fun p => decide (p.order_id = some "A")) = 2) ∧
    (∃ allM uc ui,
      reconcile [cFuzzy1, cFuzzy2] [iFuzzy] (8/10) = .ok (allM, uc, ui) ∧
      allM.countP (fun p => decide (p.job_id = some "J")) = 2) := by
  constructor
  · exact ⟨[mkDetPair cDup iDup1, mkDetPair cDup iDup2], [], [], rfl, rfl⟩
  · exact ⟨[mkFuzzyPair cFuzzy1 iFuzzy (83/100),
      mkFuzzyPair cFuzzy2 iFuzzy (93/100)], [], [],
      reconcile_fuzzy_double_eval, rfl⟩

/-- Witness for C3 (amended) at the concrete one-row run. -/
theorem reconcile_at_most_one_client_witness :
    [mkFuzzyPair cShort iShort (83/100)].countP
      (fun p => decide (p.order_id = some "A")) ≤ 1 := by
  apply reconcile_at_most_one_client [cShort] [iShort] (4/5) _ [] []
    (reconcile_short_eval (4/5) (by norm_num)) (by simp) (by simp) "A"
